import Mathlib

/-!
# Verification of the market-data alignment and derivation layer

A shallow embedding of the data-alignment core of the `website_portfolio`
dashboard: the raw table parser (`parseCsvLine`, `parseUsDateToUtcTime`,
`parseTreasurySeries`), the temporal alignment engine
(`getIsoWeekKeyFromTime`, `resolveAlignedPointIndex`, `getAlignedPoint`),
and the derivation functions (`computeRollingHigh`, `getYearAnchorValue`,
`getCyclePoint`, the quarterly implied-cut ladder of `QuartlyCuts`).

Conventions of the embedding:
* JavaScript `number` timestamps are `Int` milliseconds since the Unix
  epoch; data values are `ℚ` (the source only adds, subtracts, scales and
  compares parsed decimal literals).
* JavaScript `Date` arithmetic (`Date.UTC`, `getUTC*`, `setUTCDate`,
  `setUTCMonth`) is modelled with the standard proleptic-Gregorian
  civil-date/day-count conversion, including ECMAScript's normalization of
  out-of-range month/day arguments and the two-digit-year rule of
  `Date.UTC`.
* `null` results are `Option.none`.
-/

namespace MarketData

/-- Milliseconds per day (`DAY_MS` in the source). -/
def DAY_MS : Int := 24 * 60 * 60 * 1000

/-- A proleptic-Gregorian calendar date as seen through the JavaScript
`Date` UTC accessors: `y` is `getUTCFullYear()`, `m` is `getUTCMonth() + 1`
(so `1..12`), `d` is `getUTCDate()` (`1..31`). -/
structure Civil where
  y : Int
  m : Int
  d : Int
deriving DecidableEq, Repr

/-- Day count since 1970-01-01 of the civil date `(y, m, d)` (standard
civil-to-days algorithm; agrees with ECMAScript `MakeDay` for month
`1..12`, and is linear in `d` exactly as `MakeDay` is). -/
def daysFromCivil (y m d : Int) : Int :=
  let y2 : Int := if m ≤ 2 then y - 1 else y
  let era : Int := y2.fdiv 400
  let yoe : Int := y2 - era * 400
  let mp : Int := if 2 < m then m - 3 else m + 9
  let doy : Int := (153 * mp + 2).fdiv 5 + d - 1
  let doe : Int := yoe * 365 + yoe.fdiv 4 - yoe.fdiv 100 + doy
  era * 146097 + doe - 719468

/-- Civil date of a day count since 1970-01-01 (standard days-to-civil
algorithm; the calendar behind the `getUTC*` accessors). -/
def civilFromDays (z0 : Int) : Civil :=
  let z : Int := z0 + 719468
  let era : Int := z.fdiv 146097
  let doe : Int := z - era * 146097
  let yoe : Int := (doe - doe.fdiv 1460 + doe.fdiv 36524 - doe.fdiv 146096).fdiv 365
  let y : Int := yoe + era * 400
  let doy : Int := doe - (365 * yoe + yoe.fdiv 4 - yoe.fdiv 100)
  let mp : Int := (5 * doy + 2).fdiv 153
  let d : Int := doy - (153 * mp + 2).fdiv 5 + 1
  let m : Int := if mp < 10 then mp + 3 else mp - 9
  ⟨if m ≤ 2 then y + 1 else y, m, d⟩

/-- ECMAScript month-and-day normalization (`MakeDay` composed with
`TimeClip`, without the two-digit-year rule): epoch milliseconds of the
date with year `y`, zero-based month index `mIdx` (any integer, folded
into the year) and day-of-month `d` (any integer, rolled over by day
arithmetic). This is the semantics of `setUTCMonth`/`setUTCDate`. -/
def msOfCivil (y mIdx d : Int) : Int :=
  (daysFromCivil (y + mIdx.fdiv 12) (mIdx.emod 12 + 1) 1 + (d - 1)) * DAY_MS

/-- ECMAScript `Date.UTC(y, mIdx, d)`: `msOfCivil` plus the rule that an
integer year `0..99` is interpreted as `1900..1999`. -/
def jsDateUTC (y mIdx d : Int) : Int :=
  msOfCivil (if 0 ≤ y ∧ y ≤ 99 then y + 1900 else y) mIdx d

/-- The civil date of a timestamp, i.e. `new Date(t)` observed through
`getUTCFullYear`/`getUTCMonth`/`getUTCDate`. -/
def civilOfMs (t : Int) : Civil := civilFromDays (t.fdiv DAY_MS)

/-- `getUTCDay()` of a timestamp: `0` = Sunday .. `6` = Saturday
(1970-01-01 was a Thursday, day `4`). -/
def jsGetUTCDay (t : Int) : Int := (t.fdiv DAY_MS + 4).emod 7

/-- `getIsoWeekKeyFromTime` from the source: Monday-anchored ISO-8601 week
key `"{year}-{weekNumber}"`. Mirrors the source line by line: truncate the
timestamp to a UTC-midnight `Date`, shift to the Thursday of its week via
`setUTCDate(date + 4 - dayNumber)`, and count weeks from January 1 of the
Thursday's year (`Math.ceil` of an exact integer quotient). -/
def getIsoWeekKeyFromTime (time : Int) : String :=
  let c := civilOfMs time
  let target : Int := jsDateUTC c.y (c.m - 1) c.d
  let w : Int := jsGetUTCDay target
  let dayNumber : Int := if w = 0 then 7 else w
  let tc := civilOfMs target
  let target2 : Int := msOfCivil tc.y (tc.m - 1) (tc.d + 4 - dayNumber)
  let t2c := civilOfMs target2
  let yearStart : Int := jsDateUTC t2c.y 0 1
  let weekNumber : Int := ((target2 - yearStart).fdiv DAY_MS + 1 + 6).fdiv 7
  let isoYear := t2c.y
  s!"{isoYear}-{weekNumber}"

/-- ASCII instance of the whitespace class removed by JavaScript
`String.prototype.trim` (the source data is ASCII). -/
def isJsSpace (c : Char) : Bool :=
  c == ' ' || c == '\t' || c == '\n' || c == '\r' || c == '\x0b' || c == '\x0c'

/-- JavaScript `.trim()`. -/
def jsTrim (s : String) : String :=
  String.mk (((s.data.dropWhile isJsSpace).reverse.dropWhile isJsSpace).reverse)

/-- `.replace(/^"|"$/g, "")` on a character list: drop one leading and one
trailing double-quote, each when present. -/
def stripOuterQuotesList (cs : List Char) : List Char :=
  let cs1 := match cs with
    | '"' :: rest => rest
    | _ => cs
  match cs1.reverse with
  | '"' :: rest => rest.reverse
  | _ => cs1

/-- `.replace(/^"|"$/g, "")` on a string. -/
def stripOuterQuotes (s : String) : String := String.mk (stripOuterQuotesList s.data)

/-- Numeric value of a digit string (how JavaScript `Number` reads the
digit groups captured by the date regex). -/
def digitsToNat (cs : List Char) : Nat :=
  cs.foldl (fun a c => a * 10 + (c.toNat - 48)) 0

/-- All characters are decimal digits. -/
def allDigits (cs : List Char) : Bool := cs.all (·.isDigit)

/-- Split a character list at every `'/'` (JavaScript `split("/")`
semantics, used to express the `^(\d{1,2})\/(\d{1,2})\/(\d{4})$` match). -/
def splitOnSlash : List Char → List (List Char)
  | [] => [[]]
  | '/' :: rest => [] :: splitOnSlash rest
  | c :: rest =>
    match splitOnSlash rest with
    | [] => [[c]]
    | p :: ps => (c :: p) :: ps

/-- `parseUsDateToUtcTime` from the source: trim, strip one layer of outer
quotes, match `^(\d{1,2})\/(\d{1,2})\/(\d{4})$`, and convert through
`Date.UTC(year, month - 1, day)`. Note the source performs no range check
on the month or day beyond the digit-count pattern; `Date.UTC`
normalization applies. -/
def parseUsDateToUtcTime (raw : String) : Option Int :=
  let value := stripOuterQuotesList (jsTrim raw).data
  match splitOnSlash value with
  | [a, b, c] =>
    if 1 ≤ a.length ∧ a.length ≤ 2 ∧ allDigits a ∧
       1 ≤ b.length ∧ b.length ≤ 2 ∧ allDigits b ∧
       c.length = 4 ∧ allDigits c then
      some (jsDateUTC (digitsToNat c) ((digitsToNat a : Int) - 1) (digitsToNat b))
    else none
  | _ => none

/-- One observation of one instrument on one day (`PricePoint`). -/
structure PricePoint where
  time : Int
  value : ℚ
deriving DecidableEq, Repr

/-- Worker for `parseCsvLine`: split at every comma that is followed by an
even number of double-quote characters — the semantics of the source's
lookahead split `,(?=(?:[^"]*"[^"]*")*[^"]*$)`. -/
def splitCsvAux : List Char → List Char → List String
  | [], acc => [String.mk acc.reverse]
  | c :: rest, acc =>
    if c = ',' ∧ rest.count '"' % 2 = 0 then
      String.mk acc.reverse :: splitCsvAux rest []
    else splitCsvAux rest (c :: acc)

/-- `parseCsvLine` from the source: split outside quotes, `.trim()` each
part. -/
def parseCsvLine (line : String) : List String :=
  (splitCsvAux line.data []).map jsTrim

/-- Split on the separator `/\r?\n/`. -/
def splitLinesAux : List Char → List Char → List String
  | [], acc => [String.mk acc.reverse]
  | '\n' :: rest, acc =>
    let body := match acc with
      | '\r' :: a => a
      | _ => acc
    String.mk body.reverse :: splitLinesAux rest []
  | c :: rest, acc => splitLinesAux rest (c :: acc)

/-- JavaScript `s.split(/\r?\n/)`. -/
def splitLinesJs (s : String) : List String := splitLinesAux s.data []

/-- Longest digit prefix and the remainder. -/
def spanDigits (cs : List Char) : List Char × List Char :=
  (cs.takeWhile (·.isDigit), cs.dropWhile (·.isDigit))

/-- Signed digit group of an exponent part. -/
def parseSignedDigits : List Char → Option Int
  | '+' :: rest => if rest ≠ [] ∧ allDigits rest then some (digitsToNat rest) else none
  | '-' :: rest => if rest ≠ [] ∧ allDigits rest then some (-(digitsToNat rest : Int)) else none
  | cs => if cs ≠ [] ∧ allDigits cs then some (digitsToNat cs) else none

/-- Optional `e`/`E` exponent suffix applied to a mantissa; anything else
trailing makes the whole literal invalid. -/
def withExp (mant : ℚ) : List Char → Option ℚ
  | [] => some mant
  | 'e' :: rest => (parseSignedDigits rest).map (fun e => mant * (10 : ℚ) ^ e)
  | 'E' :: rest => (parseSignedDigits rest).map (fun e => mant * (10 : ℚ) ^ e)
  | _ => none

/-- Unsigned decimal literal: integer digits, optional fraction, optional
exponent; at least one digit in the mantissa. -/
def jsUnsignedNumber (cs : List Char) : Option ℚ :=
  let (ip, r1) := spanDigits cs
  match r1 with
  | '.' :: r2 =>
    let (fp, r3) := spanDigits r2
    if ip.isEmpty && fp.isEmpty then none
    else withExp ((digitsToNat ip : ℚ) + (digitsToNat fp : ℚ) / (10 : ℚ) ^ fp.length) r3
  | _ => if ip.isEmpty then none else withExp (digitsToNat ip : ℚ) r1

/-- JavaScript `Number(s)` restricted to finite results over signed decimal
literals — the grammar the data files use. `none` models every non-finite
result (`NaN`, `±Infinity`), which the source always discards through
`Number.isFinite`; a whitespace-only string yields `0`, as in JavaScript. -/
def jsNumber (s : String) : Option ℚ :=
  match (jsTrim s).data with
  | [] => some 0
  | '+' :: rest => jsUnsignedNumber rest
  | '-' :: rest => (jsUnsignedNumber rest).map Neg.neg
  | cs => jsUnsignedNumber cs

/-- `MAX_ALIGNMENT_GAP_DAYS_DEFAULT` from the source. -/
def MAX_ALIGNMENT_GAP_DAYS_DEFAULT : Int := 21

/-- First backward loop of `resolveAlignedPointIndex`: from index `i - 1`
down to `0`, return the first index whose point is at or before the target
and shares its ISO week key. -/
def alignSameWeekLoop (points : List PricePoint) (targetTime : Int) (targetWeek : String) :
    Nat → Option Nat
  | 0 => none
  | i + 1 =>
    match points.get? i with
    | some p =>
      if p.time ≤ targetTime ∧ getIsoWeekKeyFromTime p.time = targetWeek then some i
      else alignSameWeekLoop points targetTime targetWeek i
    | none => alignSameWeekLoop points targetTime targetWeek i

/-- Second backward loop of `resolveAlignedPointIndex`: at the first index
whose point is at or before the target, return it if within the gap
ceiling, else `-1`; `-1` if no such point. -/
def alignFallbackLoop (points : List PricePoint) (targetTime maxGapMs : Int) : Nat → Int
  | 0 => -1
  | i + 1 =>
    match points.get? i with
    | some p =>
      if p.time ≤ targetTime then
        if targetTime - p.time ≤ maxGapMs then (i : Int) else -1
      else alignFallbackLoop points targetTime maxGapMs i
    | none => alignFallbackLoop points targetTime maxGapMs i

/-- `resolveAlignedPointIndex` from the source: same-ISO-week preference,
then nearest-prior fallback bounded by `maxGapDays` (default 21); `-1`
when nothing qualifies. -/
def resolveAlignedPointIndex (points : List PricePoint) (targetTime : Int)
    (maxGapDays : Int := MAX_ALIGNMENT_GAP_DAYS_DEFAULT) : Int :=
  let targetWeek := getIsoWeekKeyFromTime targetTime
  let maxGapMs := maxGapDays * DAY_MS
  match alignSameWeekLoop points targetTime targetWeek points.length with
  | some i => (i : Int)
  | none => alignFallbackLoop points targetTime maxGapMs points.length

/-- `getAlignedPoint` from the source: the resolved point, or `null`. -/
def getAlignedPoint (points : List PricePoint) (targetTime : Int)
    (maxGapDays : Int := MAX_ALIGNMENT_GAP_DAYS_DEFAULT) : Option PricePoint :=
  let index := resolveAlignedPointIndex points targetTime maxGapDays
  if 0 ≤ index then points.get? index.toNat else none

/-- `computeRollingHigh` from the source: `Math.max` over the points inside
`[endTime - windowMs, endTime]`, falling back to all points at or before
`endTime`, `null` when no candidate exists. -/
def computeRollingHigh (points : List PricePoint) (endTime windowMs : Int) : Option ℚ :=
  let windowStart := endTime - windowMs
  let inWindow := points.filter (fun p => decide (p.time ≤ endTime) && decide (windowStart ≤ p.time))
  let candidates :=
    if 0 < inWindow.length then inWindow
    else points.filter (fun p => decide (p.time ≤ endTime))
  match candidates with
  | [] => none
  | c :: cs => some (cs.foldl (fun acc p => max acc p.value) c.value)

/-- First loop of `getYearAnchorValue`: walk the series keeping the value
of every point at or before the year start, stopping (`break`) at the
first later point. -/
def yearAnchorScan (yearStartTime : Int) : List PricePoint → Option ℚ → Option ℚ
  | [], acc => acc
  | p :: rest, acc =>
    if p.time ≤ yearStartTime then yearAnchorScan yearStartTime rest (some p.value) else acc

/-- Second loop of `getYearAnchorValue`: first point whose UTC calendar
year is the requested year. -/
def firstValueInYear (year : Int) : List PricePoint → Option ℚ
  | [] => none
  | p :: rest => if (civilOfMs p.time).y = year then some p.value else firstValueInYear year rest

/-- `getYearAnchorValue` from `YieldSlopes.tsx`: value of the last point at
or before January 1 of `year`; otherwise the first point inside that
calendar year; otherwise `null`. -/
def getYearAnchorValue (series : List PricePoint) (year : Int) : Option ℚ :=
  let yearStartTime := jsDateUTC year 0 1
  match yearAnchorScan yearStartTime series none with
  | some v => some v
  | none => firstValueInYear year series

/-- `getWindowStartTime` from `RatesAndYield.tsx`:
`setUTCMonth(getUTCMonth() - cycleMonths)` on the endpoint's `Date`
(keeping the day-of-month and time-of-day, with ECMAScript rollover), then
`Date.UTC` of the shifted date's calendar day. -/
def getWindowStartTime (endpointTime : Int) (cycleMonths : Int) : Int :=
  let c := civilOfMs endpointTime
  let shifted : Int := msOfCivil c.y (c.m - 1 - cycleMonths) c.d + endpointTime.emod DAY_MS
  let sc := civilOfMs shifted
  jsDateUTC sc.y (sc.m - 1) sc.d

/-- `CycleMode` from `RatesAndYield.tsx`. -/
inductive CycleMode
  | high
  | low
deriving DecidableEq, Repr

/-- `getCyclePoint` from `RatesAndYield.tsx`: over indices
`0..activeIndex`, ignore points before the window start and keep the best
point under the mode's strict improvement test (greater/smaller value, or
equal value and strictly later time). -/
def getCyclePoint (series : List PricePoint) (activeIndex : Int) (mode : CycleMode)
    (cycleMonths : Int) (activeTime : Int) : Option PricePoint :=
  if activeIndex < 0 then none
  else
    let windowStart := getWindowStartTime activeTime cycleMonths
    (series.take (activeIndex.toNat + 1)).foldl
      (fun best p =>
        if p.time < windowStart then best
        else
          match best with
          | none => some p
          | some b =>
            match mode with
            | .high =>
              if p.value > b.value ∨ (p.value = b.value ∧ p.time > b.time) then some p else some b
            | .low =>
              if p.value < b.value ∨ (p.value = b.value ∧ p.time > b.time) then some p else some b)
      none

/-- `MONTH_AFTER_QUARTER_CLOSE` from `QuartlyCuts`: the month whose
futures contract prices the policy rate after the quarter's close
(`1 ↦ 4`, `2 ↦ 7`, `3 ↦ 10`, `4 ↦ 1`). -/
def monthAfterQuarterClose (q : Int) : Int :=
  if q = 1 then 4 else if q = 2 then 7 else if q = 3 then 10 else 1

/-- `getQuarterSequence` from `QuartlyCuts`: the active date's quarter and
the three following quarters, as `(quarter, year)` pairs. -/
def getQuarterSequence (activeTime : Int) : List (Int × Int) :=
  let c := civilOfMs activeTime
  let startQuarter : Int := (c.m - 1).fdiv 3 + 1
  let startYear : Int := c.y
  (List.range 4).map (fun idx =>
    let z : Int := startQuarter - 1 + (idx : Int)
    (z.emod 4 + 1, startYear + z.fdiv 4))

/-- JavaScript `String(year).slice(-2)`. -/
def lastTwoChars (s : String) : String := String.mk (s.data.drop (s.data.length - 2))

/-- `formatQuarterLabel` from `QuartlyCuts`. -/
def formatQuarterLabel (quarter year : Int) : String :=
  s!"Q{quarter}\x27 {lastTwoChars (toString year)}"

/-- One row of the quarterly implied-cut ladder. -/
structure QuarterRow where
  label : String
  cutsBps : Option ℚ
deriving DecidableEq, Repr

/-- The quarterly implied-cut ladder of `QuartlyCuts` (the `useMemo` body,
lines 110–141): chained quarter rows and the running total. The aligned
spot EFFR value and the futures-implied-rate map built from the aligned
snapshot (`futuresRateByMonthYear`, keyed by contract month and year) are
the two inputs the surrounding code supplies. -/
def quartlyCutsCompute (activeTime : Int) (alignedEffr : Option ℚ)
    (futuresRateByMonthYear : Int → Int → Option ℚ) : List QuarterRow × Option ℚ :=
  let quarterSequence := getQuarterSequence activeTime
  let step : (Option ℚ × Bool × List QuarterRow) → Int × Int → Option ℚ × Bool × List QuarterRow :=
    fun st qy =>
      let impliedMonth := monthAfterQuarterClose qy.1
      let impliedYear := if qy.1 = 4 then qy.2 + 1 else qy.2
      let impliedRate := futuresRateByMonthYear impliedMonth impliedYear
      match st.1, impliedRate with
      | some p, some c =>
        (some c, st.2.1, st.2.2 ++ [⟨formatQuarterLabel qy.1 qy.2, some ((c - p) * 100)⟩])
      | _, _ =>
        (impliedRate, true, st.2.2 ++ [⟨formatQuarterLabel qy.1 qy.2, none⟩])
  let r := quarterSequence.foldl step (alignedEffr, alignedEffr.isNone, [])
  let quarterRows := r.2.2
  let total : Option ℚ :=
    if r.2.1 = false ∧ quarterRows.all (fun row => row.cutsBps.isSome) then
      some (quarterRows.foldl (fun sum row => sum + row.cutsBps.getD 0) 0)
    else none
  (quarterRows, total)

/-- JavaScript `.toUpperCase()` (ASCII range). -/
def jsToUpper (s : String) : String := String.mk (s.data.map Char.toUpper)

/-- `TreasuryInstrumentKey` from the source. -/
inductive TreasuryInstrumentKey
  | US1M | US2M | US3M | US4M | US6M | US1Y | US2Y
  | US3Y | US5Y | US7Y | US10Y | US20Y | US30Y
deriving DecidableEq, Repr

/-- `TREASURY_COLUMN_TO_TICKER` from the source: header label to key. -/
def TREASURY_COLUMN_TO_TICKER (name : String) : Option TreasuryInstrumentKey :=
  if name = "1 MO" then some .US1M
  else if name = "2 MO" then some .US2M
  else if name = "3 MO" then some .US3M
  else if name = "4 MO" then some .US4M
  else if name = "6 MO" then some .US6M
  else if name = "1 YR" then some .US1Y
  else if name = "2 YR" then some .US2Y
  else if name = "3 YR" then some .US3Y
  else if name = "5 YR" then some .US5Y
  else if name = "7 YR" then some .US7Y
  else if name = "10 YR" then some .US10Y
  else if name = "20 YR" then some .US20Y
  else if name = "30 YR" then some .US30Y
  else none

/-- A JavaScript `Map<number, number>` in insertion order. -/
abbrev NumMap := List (Int × ℚ)

/-- `Map.set`: overwrite in place when the key exists, append otherwise. -/
def mapSet : NumMap → Int → ℚ → NumMap
  | [], k, v => [(k, v)]
  | (k', v') :: rest, k, v =>
    if k' = k then (k, v) :: rest else (k', v') :: mapSet rest k v

/-- `Map.get`: value stored at a key. -/
def mapLookup : NumMap → Int → Option ℚ
  | [], _ => none
  | (k', v') :: rest, k => if k' = k then some v' else mapLookup rest k

/-- Insertion step of sorting the map entries by time. -/
def insertByTime (p : Int × ℚ) : NumMap → NumMap
  | [] => [p]
  | q :: rest => if p.1 ≤ q.1 then p :: q :: rest else q :: insertByTime p rest

/-- `.sort((a, b) => a[0] - b[0])` on the entry list. -/
def sortByTime : NumMap → NumMap
  | [] => []
  | p :: rest => insertByTime p (sortByTime rest)

/-- `dedupeSortSeries` from the source: entries of the per-instrument map
sorted ascending by time, as `PricePoint`s. -/
def dedupeSortSeries (seriesMap : NumMap) : List PricePoint :=
  (sortByTime seriesMap).map (fun e => ⟨e.1, e.2⟩)

/-- The `seriesByTicker` state of `parseTreasurySeries`: one `NumMap` per
instrument (every instrument is initialized, so a total function). -/
abbrev TreasuryMaps := TreasuryInstrumentKey → NumMap

/-- The freshly initialized `seriesByTicker`. -/
def emptyTreasuryMaps : TreasuryMaps := fun _ => []

/-- `seriesByTicker.get(ticker)?.set(time, value)`. -/
def setTreasury (m : TreasuryMaps) (tk : TreasuryInstrumentKey) (time : Int) (v : ℚ) :
    TreasuryMaps :=
  fun tk' => if tk' = tk then mapSet (m tk) time v else m tk'

/-- The header scan of `parseTreasurySeries`: normalize each header cell
(strip quotes, trim, upper-case) and keep the `(index, ticker)` pairs of
the recognized treasury columns. -/
def headerColumns (headerLine : String) : List (Nat × TreasuryInstrumentKey) :=
  (((parseCsvLine headerLine).map (fun part => jsToUpper (jsTrim (stripOuterQuotes part)))).enum).filterMap
    (fun e => (TREASURY_COLUMN_TO_TICKER e.2).map (fun tk => (e.1, tk)))

/-- The data-row step of `parseTreasurySeries`: parse the date cell, then
store every finite numeric value found under a mapped column. -/
def processTreasuryRow (columns : List (Nat × TreasuryInstrumentKey)) (m : TreasuryMaps)
    (line : String) : TreasuryMaps :=
  let parts := parseCsvLine line
  match parseUsDateToUtcTime (parts.getD 0 "") with
  | none => m
  | some time =>
    columns.foldl (fun m col =>
      match jsNumber (jsTrim (stripOuterQuotes (parts.getD col.1 ""))) with
      | none => m
      | some value => setTreasury m col.2 time value) m

/-- The per-file step of `parseTreasurySeries`: split into non-blank
lines, skip files with fewer than two lines, read the header, fold each
data row. -/
def processTreasuryFile (m : TreasuryMaps) (rawCsv : String) : TreasuryMaps :=
  let lines := (splitLinesJs (jsTrim rawCsv)).filter (fun l => 0 < (jsTrim l).length)
  if lines.length < 2 then m
  else
    let columns := headerColumns (lines.getD 0 "")
    (lines.drop 1).foldl (processTreasuryRow columns) m

/-- `parseTreasurySeries` from the source: fold every raw CSV file over
the shared per-instrument maps, then sort and emit each instrument's
series. -/
def parseTreasurySeries (rawCsvFiles : List String) : TreasuryInstrumentKey → List PricePoint :=
  let final := rawCsvFiles.foldl processTreasuryFile emptyTreasuryMaps
  fun tk => dedupeSortSeries (final tk)

/-! ## Characterization of the backward alignment loops -/

/-- Index `i` holds a point at or before the target with ISO week `tw`. -/
def CondSW (points : List PricePoint) (targetTime : Int) (tw : String) (i : Nat) : Prop :=
  ∃ p, points.get? i = some p ∧ p.time ≤ targetTime ∧ getIsoWeekKeyFromTime p.time = tw

/-- Index `i` holds a point at or before the target. -/
def CondPrior (points : List PricePoint) (targetTime : Int) (i : Nat) : Prop :=
  ∃ p, points.get? i = some p ∧ p.time ≤ targetTime

/-- Decidable form of `CondSW` at the target's own week. -/
def sameWeekMatchAt (points : List PricePoint) (targetTime : Int) (i : Nat) : Bool :=
  match points.get? i with
  | some p => decide (p.time ≤ targetTime) &&
      decide (getIsoWeekKeyFromTime p.time = getIsoWeekKeyFromTime targetTime)
  | none => false

/-- Decidable form of `CondPrior`. -/
def priorAt (points : List PricePoint) (targetTime : Int) (i : Nat) : Bool :=
  match points.get? i with
  | some p => decide (p.time ≤ targetTime)
  | none => false

lemma sameWeekMatchAt_iff (points : List PricePoint) (targetTime : Int) (i : Nat) :
    sameWeekMatchAt points targetTime i = true ↔
      CondSW points targetTime (getIsoWeekKeyFromTime targetTime) i := by
  unfold sameWeekMatchAt CondSW
  cases hp : points.get? i <;> simp

lemma priorAt_iff (points : List PricePoint) (targetTime : Int) (i : Nat) :
    priorAt points targetTime i = true ↔ CondPrior points targetTime i := by
  unfold priorAt CondPrior
  cases hp : points.get? i <;> simp

lemma alignSameWeekLoop_eq_none (points : List PricePoint) (T : Int) (tw : String) :
    ∀ k, (∀ j, j < k → ¬ CondSW points T tw j) → alignSameWeekLoop points T tw k = none := by
  intro k
  induction k with
  | zero => intro _; rfl
  | succ n ih =>
    intro h
    simp only [alignSameWeekLoop]
    cases hp : points.get? n with
    | none => exact ih fun j hj => h j (Nat.lt_succ_of_lt hj)
    | some p =>
      dsimp only
      rw [if_neg]
      · exact ih fun j hj => h j (Nat.lt_succ_of_lt hj)
      · intro hc
        exact h n (Nat.lt_succ_self n) ⟨p, hp, hc.1, hc.2⟩

lemma alignSameWeekLoop_eq_some (points : List PricePoint) (T : Int) (tw : String) :
    ∀ k i, i < k → CondSW points T tw i →
      (∀ j, j < k → i < j → ¬ CondSW points T tw j) →
      alignSameWeekLoop points T tw k = some i := by
  intro k
  induction k with
  | zero => intro i hik; exact absurd hik (Nat.not_lt_zero i)
  | succ n ih =>
    intro i hik hc hlater
    obtain ⟨p, hp, hle, hwk⟩ := hc
    simp only [alignSameWeekLoop]
    by_cases hin : i = n
    · subst hin
      rw [hp]
      dsimp only
      rw [if_pos ⟨hle, hwk⟩]
    · have hlt : i < n := lt_of_le_of_ne (Nat.lt_succ_iff.mp hik) hin
      cases hq : points.get? n with
      | none =>
        exact ih i hlt ⟨p, hp, hle, hwk⟩ fun j hj hij => hlater j (Nat.lt_succ_of_lt hj) hij
      | some q =>
        dsimp only
        rw [if_neg]
        · exact ih i hlt ⟨p, hp, hle, hwk⟩ fun j hj hij => hlater j (Nat.lt_succ_of_lt hj) hij
        · intro hcq
          exact hlater n (Nat.lt_succ_self n) hlt ⟨q, hq, hcq.1, hcq.2⟩

lemma alignSameWeekLoop_isSome (points : List PricePoint) (T : Int) (tw : String) :
    ∀ k i, i < k → CondSW points T tw i →
      (alignSameWeekLoop points T tw k).isSome = true := by
  intro k
  induction k with
  | zero => intro i hik; exact absurd hik (Nat.not_lt_zero i)
  | succ n ih =>
    intro i hik hc
    simp only [alignSameWeekLoop]
    cases hq : points.get? n with
    | none =>
      have hin : i ≠ n := by
        intro h
        subst h
        obtain ⟨p, hp, -, -⟩ := hc
        rw [hq] at hp
        exact Option.noConfusion hp
      exact ih i (lt_of_le_of_ne (Nat.lt_succ_iff.mp hik) hin) hc
    | some q =>
      dsimp only
      by_cases hcq : q.time ≤ T ∧ getIsoWeekKeyFromTime q.time = tw
      · rw [if_pos hcq]; rfl
      · rw [if_neg hcq]
        have hin : i ≠ n := by
          intro h
          subst h
          obtain ⟨p, hp, h1, h2⟩ := hc
          rw [hq] at hp
          cases hp
          exact hcq ⟨h1, h2⟩
        exact ih i (lt_of_le_of_ne (Nat.lt_succ_iff.mp hik) hin) hc

lemma alignFallbackLoop_eq_neg_one (points : List PricePoint) (T g : Int) :
    ∀ k, (∀ j, j < k → ¬ CondPrior points T j) → alignFallbackLoop points T g k = -1 := by
  intro k
  induction k with
  | zero => intro _; rfl
  | succ n ih =>
    intro h
    simp only [alignFallbackLoop]
    cases hp : points.get? n with
    | none => exact ih fun j hj => h j (Nat.lt_succ_of_lt hj)
    | some p =>
      dsimp only
      rw [if_neg]
      · exact ih fun j hj => h j (Nat.lt_succ_of_lt hj)
      · intro hle
        exact h n (Nat.lt_succ_self n) ⟨p, hp, hle⟩

lemma alignFallbackLoop_found (points : List PricePoint) (T g : Int) :
    ∀ k i p, i < k → points.get? i = some p → p.time ≤ T →
      (∀ j, j < k → i < j → ¬ CondPrior points T j) →
      alignFallbackLoop points T g k = if T - p.time ≤ g then (i : Int) else -1 := by
  intro k
  induction k with
  | zero => intro i p hik; exact absurd hik (Nat.not_lt_zero i)
  | succ n ih =>
    intro i p hik hp hle hlater
    simp only [alignFallbackLoop]
    by_cases hin : i = n
    · subst hin
      rw [hp]
      dsimp only
      rw [if_pos hle]
    · have hlt : i < n := lt_of_le_of_ne (Nat.lt_succ_iff.mp hik) hin
      cases hq : points.get? n with
      | none =>
        exact ih i p hlt hp hle fun j hj hij => hlater j (Nat.lt_succ_of_lt hj) hij
      | some q =>
        dsimp only
        rw [if_neg]
        · exact ih i p hlt hp hle fun j hj hij => hlater j (Nat.lt_succ_of_lt hj) hij
        · intro hq'
          exact hlater n (Nat.lt_succ_self n) hlt ⟨q, hq, hq'⟩

/-- C3: for a series sorted ascending by time, `resolveAlignedPointIndex`
returns the index of the last point at or before `targetTime` in
`targetTime`'s ISO week when one exists; otherwise the index of the most
recent point at or before `targetTime` provided the gap is at most
`maxGapDays` days (inclusive), and `-1` beyond the gap; and `-1` when no
point is at or before `targetTime` (in particular for an empty series). -/
theorem resolveAlignedPointIndex_characterization
    (points : List PricePoint) (targetTime maxGapDays : Int)
    (hsort : List.Pairwise (fun p q => p.time ≤ q.time) points) :
    (∀ i, i < points.length → sameWeekMatchAt points targetTime i →
      (∀ j, j < points.length → i < j → ¬ sameWeekMatchAt points targetTime j) →
      resolveAlignedPointIndex points targetTime maxGapDays = (i : Int)) ∧
    (∀ i p, points.get? i = some p → p.time ≤ targetTime →
      (∀ j, j < points.length → ¬ sameWeekMatchAt points targetTime j) →
      (∀ j, j < points.length → i < j → ¬ priorAt points targetTime j) →
      ((targetTime - p.time ≤ maxGapDays * DAY_MS →
          resolveAlignedPointIndex points targetTime maxGapDays = (i : Int)) ∧
        (maxGapDays * DAY_MS < targetTime - p.time →
          resolveAlignedPointIndex points targetTime maxGapDays = -1))) ∧
    ((∀ j, j < points.length → ¬ priorAt points targetTime j) →
      resolveAlignedPointIndex points targetTime maxGapDays = -1) := by
  refine ⟨?_, ?_, ?_⟩
  · intro i hi hc hlater
    simp only [resolveAlignedPointIndex]
    rw [alignSameWeekLoop_eq_some points targetTime _ points.length i hi
      ((sameWeekMatchAt_iff points targetTime i).mp hc)
      (fun j hj hij hcj =>
        hlater j hj hij ((sameWeekMatchAt_iff points targetTime j).mpr hcj))]
  · intro i p hp hle hnoweek hlater
    have hi : i < points.length := List.get?_eq_some.mp hp |>.1
    have hbase : resolveAlignedPointIndex points targetTime maxGapDays =
        if targetTime - p.time ≤ maxGapDays * DAY_MS then (i : Int) else -1 := by
      simp only [resolveAlignedPointIndex]
      rw [alignSameWeekLoop_eq_none points targetTime _ points.length
        (fun j hj hcj =>
          hnoweek j hj ((sameWeekMatchAt_iff points targetTime j).mpr hcj))]
      exact alignFallbackLoop_found points targetTime (maxGapDays * DAY_MS)
        points.length i p hi hp hle
        (fun j hj hij hcj => hlater j hj hij ((priorAt_iff points targetTime j).mpr hcj))
    constructor
    · intro hg
      rw [hbase, if_pos hg]
    · intro hg
      rw [hbase, if_neg (not_le.mpr hg)]
  · intro hnone
    simp only [resolveAlignedPointIndex]
    rw [alignSameWeekLoop_eq_none points targetTime _ points.length ?hwk]
    case hwk =>
      intro j hj hcj
      obtain ⟨p, hp, h1, -⟩ := hcj
      exact hnone j hj ((priorAt_iff points targetTime j).mpr ⟨p, hp, h1⟩)
    exact alignFallbackLoop_eq_neg_one points targetTime (maxGapDays * DAY_MS) points.length
      (fun j hj hcj => hnone j hj ((priorAt_iff points targetTime j).mpr hcj))

/-- C3 witness: in the series `[Jan 13 2025, Jan 14 2025]` aligning
`Jan 15 2025` with gap 21 selects index 1 (same-ISO-week preference). -/
theorem resolveAlignedPointIndex_characterization_witness :
    resolveAlignedPointIndex
      [⟨jsDateUTC 2025 0 13, 4⟩, ⟨jsDateUTC 2025 0 14, 5⟩] (jsDateUTC 2025 0 15) 21 = 1 :=
  (resolveAlignedPointIndex_characterization
      [⟨jsDateUTC 2025 0 13, 4⟩, ⟨jsDateUTC 2025 0 14, 5⟩] (jsDateUTC 2025 0 15) 21
      (by decide)).1 1 (by decide) (by decide) (by decide)

/-- C4: with no same-week match and the most recent prior point exactly 21
days before the target, the default-gap alignment succeeds; at exactly 22
days it reports `-1` (the default ceiling is inclusive at 21 days). -/
theorem resolveAlignedPointIndex_gap_ceiling
    (points : List PricePoint) (targetTime : Int)
    (hsort : List.Pairwise (fun p q => p.time ≤ q.time) points)
    (hnoweek : ∀ j, j < points.length → ¬ sameWeekMatchAt points targetTime j)
    (i : Nat) (p : PricePoint) (hp : points.get? i = some p) (hle : p.time ≤ targetTime)
    (hlater : ∀ j, j < points.length → i < j → ¬ priorAt points targetTime j) :
    (targetTime - p.time = 21 * DAY_MS →
      resolveAlignedPointIndex points targetTime = (i : Int)) ∧
    (targetTime - p.time = 22 * DAY_MS →
      resolveAlignedPointIndex points targetTime = -1) := by
  have h := (resolveAlignedPointIndex_characterization points targetTime
    MAX_ALIGNMENT_GAP_DAYS_DEFAULT hsort).2.1 i p hp hle hnoweek hlater
  constructor
  · intro hgap
    refine h.1 ?_
    rw [hgap]
    unfold MAX_ALIGNMENT_GAP_DAYS_DEFAULT DAY_MS
    norm_num
  · intro hgap
    refine h.2 ?_
    rw [hgap]
    unfold MAX_ALIGNMENT_GAP_DAYS_DEFAULT DAY_MS
    norm_num

/-- C4 witness: aligning `Jan 15 2025` against a single point 21 days
earlier (`Dec 25 2024`) succeeds; against a single point 22 days earlier
(`Dec 24 2024`) it reports `-1`. -/
theorem resolveAlignedPointIndex_gap_ceiling_witness :
    resolveAlignedPointIndex [⟨jsDateUTC 2024 11 25, 4⟩] (jsDateUTC 2025 0 15) = 0 ∧
    resolveAlignedPointIndex [⟨jsDateUTC 2024 11 24, 4⟩] (jsDateUTC 2025 0 15) = -1 :=
  ⟨(resolveAlignedPointIndex_gap_ceiling [⟨jsDateUTC 2024 11 25, 4⟩] (jsDateUTC 2025 0 15)
      (by decide) (by decide) 0 ⟨jsDateUTC 2024 11 25, 4⟩ (by decide) (by decide)
      (by decide)).1 (by decide),
    (resolveAlignedPointIndex_gap_ceiling [⟨jsDateUTC 2024 11 24, 4⟩] (jsDateUTC 2025 0 15)
      (by decide) (by decide) 0 ⟨jsDateUTC 2024 11 24, 4⟩ (by decide) (by decide)
      (by decide)).2 (by decide)⟩

/-- C10: when some point at or before the target shares the target's ISO
week, `resolveAlignedPointIndex` does not depend on `maxGapDays` at all —
the same-week phase never consults the gap ceiling. -/
theorem resolveAlignedPointIndex_gap_independent
    (points : List PricePoint) (targetTime g g' : Int)
    (hex : ∃ i, i < points.length ∧ sameWeekMatchAt points targetTime i) :
    resolveAlignedPointIndex points targetTime g =
      resolveAlignedPointIndex points targetTime g' := by
  obtain ⟨i, hi, hc⟩ := hex
  have h := alignSameWeekLoop_isSome points targetTime (getIsoWeekKeyFromTime targetTime)
    points.length i hi ((sameWeekMatchAt_iff points targetTime i).mp hc)
  obtain ⟨j, hj⟩ := Option.isSome_iff_exists.mp h
  simp only [resolveAlignedPointIndex]
  rw [hj]

/-- C10 witness: with a same-week point present, gap `0` and the default
gap `21` agree. -/
theorem resolveAlignedPointIndex_gap_independent_witness :
    resolveAlignedPointIndex [⟨jsDateUTC 2025 0 14, 5⟩] (jsDateUTC 2025 0 15) 0 =
      resolveAlignedPointIndex [⟨jsDateUTC 2025 0 14, 5⟩] (jsDateUTC 2025 0 15) 21 :=
  resolveAlignedPointIndex_gap_independent [⟨jsDateUTC 2025 0 14, 5⟩] (jsDateUTC 2025 0 15) 0 21
    ⟨0, by decide, by decide⟩

/-! ## Rolling high -/

lemma le_foldl_max (l : List PricePoint) (a : ℚ) :
    a ≤ l.foldl (fun acc q => max acc q.value) a := by
  induction l generalizing a with
  | nil => exact le_refl a
  | cons q l ih => exact le_trans (le_max_left a q.value) (ih (max a q.value))

lemma value_le_foldl_max (l : List PricePoint) (p : PricePoint) :
    ∀ a : ℚ, p ∈ l → p.value ≤ l.foldl (fun acc q => max acc q.value) a := by
  induction l with
  | nil => intro a hp; cases hp
  | cons q l ih =>
    intro a hp
    rcases List.mem_cons.mp hp with h | h
    · subst h
      exact le_trans (le_max_right a p.value) (le_foldl_max l (max a p.value))
    · exact ih (max a q.value) h

lemma foldl_max_mem (l : List PricePoint) (a : ℚ) :
    l.foldl (fun acc q => max acc q.value) a = a ∨
      ∃ p ∈ l, l.foldl (fun acc q => max acc q.value) a = p.value := by
  induction l generalizing a with
  | nil => exact Or.inl rfl
  | cons q l ih =>
    rw [List.foldl_cons]
    rcases ih (max a q.value) with h | ⟨p, hp, h⟩
    · rcases max_choice a q.value with he | he
      · exact Or.inl (by rw [h, he])
      · exact Or.inr ⟨q, List.mem_cons_self q l, by rw [h, he]⟩
    · exact Or.inr ⟨p, List.mem_cons_of_mem q hp, h⟩

lemma listMax_spec (c : PricePoint) (cs : List PricePoint) :
    (∃ p ∈ c :: cs, cs.foldl (fun acc q => max acc q.value) c.value = p.value) ∧
    ∀ p ∈ c :: cs, p.value ≤ cs.foldl (fun acc q => max acc q.value) c.value := by
  constructor
  · rcases foldl_max_mem cs c.value with h | ⟨p, hp, h⟩
    · exact ⟨c, List.mem_cons_self c cs, h⟩
    · exact ⟨p, List.mem_cons_of_mem c hp, h⟩
  · intro p hp
    rcases List.mem_cons.mp hp with h | h
    · subst h
      exact le_foldl_max cs p.value
    · exact value_le_foldl_max cs p c.value h

/-- C6: `computeRollingHigh` returns the maximum value over points inside
`[endTime - windowMs, endTime]`; when that window holds no point, the
maximum over all points at or before `endTime`; and `none` exactly when no
point is at or before `endTime`. -/
theorem computeRollingHigh_characterization (points : List PricePoint) (endTime windowMs : Int) :
    ((∃ p ∈ points, endTime - windowMs ≤ p.time ∧ p.time ≤ endTime) →
      ∃ m, computeRollingHigh points endTime windowMs = some m ∧
        (∃ p ∈ points, (endTime - windowMs ≤ p.time ∧ p.time ≤ endTime) ∧ p.value = m) ∧
        ∀ p ∈ points, endTime - windowMs ≤ p.time → p.time ≤ endTime → p.value ≤ m) ∧
    ((∀ p ∈ points, ¬(endTime - windowMs ≤ p.time ∧ p.time ≤ endTime)) →
      (∃ p ∈ points, p.time ≤ endTime) →
      ∃ m, computeRollingHigh points endTime windowMs = some m ∧
        (∃ p ∈ points, p.time ≤ endTime ∧ p.value = m) ∧
        ∀ p ∈ points, p.time ≤ endTime → p.value ≤ m) ∧
    (computeRollingHigh points endTime windowMs = none ↔ ∀ p ∈ points, endTime < p.time) := by
  have hmemW : ∀ p : PricePoint,
      p ∈ points.filter (fun p => decide (p.time ≤ endTime) && decide (endTime - windowMs ≤ p.time)) ↔
        p ∈ points ∧ endTime - windowMs ≤ p.time ∧ p.time ≤ endTime := by
    intro p
    rw [List.mem_filter]
    simp [and_comm]
  have hmemF : ∀ p : PricePoint,
      p ∈ points.filter (fun p => decide (p.time ≤ endTime)) ↔
        p ∈ points ∧ p.time ≤ endTime := by
    intro p
    rw [List.mem_filter]
    simp
  refine ⟨?_, ?_, ?_⟩
  · rintro ⟨p0, hp0, hw1, hw2⟩
    simp only [computeRollingHigh]
    cases hc : points.filter
        (fun p => decide (p.time ≤ endTime) && decide (endTime - windowMs ≤ p.time)) with
    | nil =>
      exact absurd ((hmemW p0).mpr ⟨hp0, hw1, hw2⟩) (by rw [hc]; exact List.not_mem_nil p0)
    | cons c cs =>
      rw [if_pos (by simp)]
      refine ⟨cs.foldl (fun acc q => max acc q.value) c.value, rfl, ?_, ?_⟩
      · obtain ⟨p, hp, hv⟩ := (listMax_spec c cs).1
        rw [← hc] at hp
        obtain ⟨hpp, hpw⟩ := (hmemW p).mp hp
        exact ⟨p, hpp, hpw, hv.symm⟩
      · intro p hpp h1 h2
        exact (listMax_spec c cs).2 p (by rw [← hc]; exact (hmemW p).mpr ⟨hpp, h1, h2⟩)
  · intro hnone
    rintro ⟨p0, hp0, hle0⟩
    simp only [computeRollingHigh]
    have hWnil : points.filter
        (fun p => decide (p.time ≤ endTime) && decide (endTime - windowMs ≤ p.time)) = [] := by
      rw [List.filter_eq_nil]
      intro p hp
      simp only [Bool.and_eq_true, decide_eq_true_eq, not_and]
      intro h2 h1
      exact hnone p hp ⟨h1, h2⟩
    rw [hWnil, if_neg (by simp)]
    cases hc : points.filter (fun p => decide (p.time ≤ endTime)) with
    | nil =>
      exact absurd ((hmemF p0).mpr ⟨hp0, hle0⟩) (by rw [hc]; exact List.not_mem_nil p0)
    | cons c cs =>
      refine ⟨cs.foldl (fun acc q => max acc q.value) c.value, rfl, ?_, ?_⟩
      · obtain ⟨p, hp, hv⟩ := (listMax_spec c cs).1
        rw [← hc] at hp
        obtain ⟨hpp, hpw⟩ := (hmemF p).mp hp
        exact ⟨p, hpp, hpw, hv.symm⟩
      · intro p hpp h1
        exact (listMax_spec c cs).2 p (by rw [← hc]; exact (hmemF p).mpr ⟨hpp, h1⟩)
  · constructor
    · intro hnone p hp
      by_contra hlt
      rw [not_lt] at hlt
      simp only [computeRollingHigh] at hnone
      cases hc : points.filter
          (fun p => decide (p.time ≤ endTime) && decide (endTime - windowMs ≤ p.time)) with
      | cons c cs =>
        rw [hc, if_pos (by simp)] at hnone
        exact Option.noConfusion hnone
      | nil =>
        rw [hc, if_neg (by simp)] at hnone
        cases hf : points.filter (fun p => decide (p.time ≤ endTime)) with
        | cons c cs =>
          rw [hf] at hnone
          exact Option.noConfusion hnone
        | nil =>
          exact absurd ((hmemF p).mpr ⟨hp, hlt⟩) (by rw [hf]; exact List.not_mem_nil p)
    · intro hall
      simp only [computeRollingHigh]
      have hWnil : points.filter
          (fun p => decide (p.time ≤ endTime) && decide (endTime - windowMs ≤ p.time)) = [] := by
        rw [List.filter_eq_nil]
        intro p hp
        simp only [Bool.and_eq_true, decide_eq_true_eq, not_and]
        intro h2 h1
        exact absurd h2 (not_le.mpr (hall p hp))
      have hFnil : points.filter (fun p => decide (p.time ≤ endTime)) = [] := by
        rw [List.filter_eq_nil]
        intro p hp
        simp only [decide_eq_true_eq]
        exact not_le.mpr (hall p hp)
      rw [hWnil, hFnil, if_neg (by simp)]

/-- C6 witness: both points of `[{0, 3}, {1 day, 7}]` fall outside the
one-day window ending at day 3, so the fallback applies and yields the
overall maximum of the points at or before `endTime`. -/
theorem computeRollingHigh_characterization_witness :
    ∃ m, computeRollingHigh [⟨0, 3⟩, ⟨DAY_MS, 7⟩] (3 * DAY_MS) DAY_MS = some m ∧
      (∃ p ∈ [(⟨0, 3⟩ : PricePoint), ⟨DAY_MS, 7⟩], p.time ≤ 3 * DAY_MS ∧ p.value = m) ∧
      ∀ p ∈ [(⟨0, 3⟩ : PricePoint), ⟨DAY_MS, 7⟩], p.time ≤ 3 * DAY_MS → p.value ≤ m :=
  (computeRollingHigh_characterization [⟨0, 3⟩, ⟨DAY_MS, 7⟩] (3 * DAY_MS) DAY_MS).2.1
    (by decide) (by decide)

/-! ## Year-start anchor -/

lemma yearAnchorScan_of_gt (ys : Int) (l : List PricePoint) (acc : Option ℚ)
    (h : ∀ p ∈ l, ys < p.time) : yearAnchorScan ys l acc = acc := by
  cases l with
  | nil => rfl
  | cons p rest =>
    simp only [yearAnchorScan]
    rw [if_neg (not_le.mpr (h p (List.mem_cons_self p rest)))]

lemma yearAnchorScan_some_ne_none (ys : Int) :
    ∀ (l : List PricePoint) (v : ℚ), yearAnchorScan ys l (some v) ≠ none := by
  intro l
  induction l with
  | nil => intro v h; exact Option.noConfusion h
  | cons p rest ih =>
    intro v
    simp only [yearAnchorScan]
    by_cases hle : p.time ≤ ys
    · rw [if_pos hle]
      exact ih p.value
    · rw [if_neg hle]
      intro h
      exact Option.noConfusion h

lemma yearAnchorScan_last (ys : Int) :
    ∀ (l : List PricePoint) (i : Nat) (p : PricePoint) (acc : Option ℚ),
      List.Pairwise (fun a b => a.time ≤ b.time) l →
      l.get? i = some p → p.time ≤ ys →
      (∀ j q, l.get? j = some q → i < j → ys < q.time) →
      yearAnchorScan ys l acc = some p.value := by
  intro l
  induction l with
  | nil => intro i p acc _ hp; exact absurd hp (by simp)
  | cons x rest ih =>
    intro i p acc hsort hp hle hlater
    obtain ⟨hhead, htail⟩ := List.pairwise_cons.mp hsort
    cases i with
    | zero =>
      have hx : x = p := Option.some.inj hp
      subst hx
      simp only [yearAnchorScan]
      rw [if_pos hle]
      refine yearAnchorScan_of_gt ys rest (some x.value) ?_
      intro q hq
      obtain ⟨j, hj⟩ := List.mem_iff_get?.mp hq
      exact hlater (j + 1) q hj (Nat.succ_pos j)
    | succ j =>
      have hp' : rest.get? j = some p := hp
      have hxp : x.time ≤ p.time := hhead p (List.get?_mem hp')
      simp only [yearAnchorScan]
      rw [if_pos (le_trans hxp hle)]
      exact ih j p (some x.value) htail hp' hle
        (fun j' q hq hij => hlater (j' + 1) q hq (Nat.succ_lt_succ hij))

lemma yearAnchorScan_none_gt (ys : Int) (l : List PricePoint)
    (hsort : List.Pairwise (fun a b => a.time ≤ b.time) l)
    (h : yearAnchorScan ys l none = none) : ∀ p ∈ l, ys < p.time := by
  cases l with
  | nil => intro p hp; cases hp
  | cons x rest =>
    obtain ⟨hhead, -⟩ := List.pairwise_cons.mp hsort
    simp only [yearAnchorScan] at h
    by_cases hle : x.time ≤ ys
    · rw [if_pos hle] at h
      exact absurd h (yearAnchorScan_some_ne_none ys rest x.value)
    · intro p hp
      rcases List.mem_cons.mp hp with hpx | hpr
      · subst hpx; exact not_le.mp hle
      · exact lt_of_lt_of_le (not_le.mp hle) (hhead p hpr)

lemma firstValueInYear_first (year : Int) :
    ∀ (l : List PricePoint) (i : Nat) (p : PricePoint),
      l.get? i = some p → (civilOfMs p.time).y = year →
      (∀ j q, l.get? j = some q → j < i → (civilOfMs q.time).y ≠ year) →
      firstValueInYear year l = some p.value := by
  intro l
  induction l with
  | nil => intro i p hp; exact absurd hp (by simp)
  | cons x rest ih =>
    intro i p hp hy hbefore
    cases i with
    | zero =>
      have hx : x = p := Option.some.inj hp
      subst hx
      simp only [firstValueInYear]
      rw [if_pos hy]
    | succ j =>
      simp only [firstValueInYear]
      rw [if_neg (hbefore 0 x rfl (Nat.succ_pos j))]
      exact ih j p hp hy fun j' q hq hji => hbefore (j' + 1) q hq (Nat.succ_lt_succ hji)

lemma firstValueInYear_eq_none_iff (year : Int) :
    ∀ l : List PricePoint,
      firstValueInYear year l = none ↔ ∀ p ∈ l, (civilOfMs p.time).y ≠ year := by
  intro l
  induction l with
  | nil => simp [firstValueInYear]
  | cons x rest ih =>
    simp only [firstValueInYear]
    by_cases hy : (civilOfMs x.time).y = year
    · rw [if_pos hy]
      simp [hy]
    · rw [if_neg hy]
      rw [ih]
      constructor
      · intro h p hp
        rcases List.mem_cons.mp hp with hpx | hpr
        · subst hpx; exact hy
        · exact h p hpr
      · intro h p hp
        exact h p (List.mem_cons_of_mem x hp)

/-- C7: for a series sorted ascending by time, `getYearAnchorValue` is the
value of the last point at or before January 1 UTC of `year`; failing
that, the first point whose UTC calendar year is `year`; and `none`
exactly when neither exists. -/
theorem getYearAnchorValue_characterization (series : List PricePoint) (year : Int)
    (hsort : List.Pairwise (fun p q => p.time ≤ q.time) series) :
    (∀ i p, series.get? i = some p → p.time ≤ jsDateUTC year 0 1 →
      (∀ j, (hj : j < series.length) → i < j →
        jsDateUTC year 0 1 < (series.get ⟨j, hj⟩).time) →
      getYearAnchorValue series year = some p.value) ∧
    ((∀ p ∈ series, jsDateUTC year 0 1 < p.time) →
      ∀ i p, series.get? i = some p → (civilOfMs p.time).y = year →
      (∀ j, (hj : j < series.length) → j < i →
        (civilOfMs (series.get ⟨j, hj⟩).time).y ≠ year) →
      getYearAnchorValue series year = some p.value) ∧
    (getYearAnchorValue series year = none ↔
      (∀ p ∈ series, jsDateUTC year 0 1 < p.time) ∧
      ∀ p ∈ series, (civilOfMs p.time).y ≠ year) := by
  refine ⟨?_, ?_, ?_⟩
  · intro i p hp hle hlater
    simp only [getYearAnchorValue]
    rw [yearAnchorScan_last (jsDateUTC year 0 1) series i p none hsort hp hle ?hl]
    case hl =>
      intro j q hq hij
      have hjlen : j < series.length := (List.get?_eq_some.mp hq).1
      have hqe : series.get ⟨j, hjlen⟩ = q := by
        have := List.get?_eq_get hjlen (l := series)
        rw [this] at hq
        exact Option.some.inj hq
      rw [← hqe]
      exact hlater j hjlen hij
  · intro hall i p hp hy hbefore
    simp only [getYearAnchorValue]
    rw [yearAnchorScan_of_gt (jsDateUTC year 0 1) series none hall]
    exact firstValueInYear_first year series i p hp hy fun j q hq hji => by
      have hjlen : j < series.length := (List.get?_eq_some.mp hq).1
      have hqe : series.get ⟨j, hjlen⟩ = q := by
        have := List.get?_eq_get hjlen (l := series)
        rw [this] at hq
        exact Option.some.inj hq
      rw [← hqe]
      exact hbefore j hjlen hji
  · constructor
    · intro hnone
      simp only [getYearAnchorValue] at hnone
      cases hscan : yearAnchorScan (jsDateUTC year 0 1) series none with
      | some v => rw [hscan] at hnone; exact Option.noConfusion hnone
      | none =>
        rw [hscan] at hnone
        exact ⟨yearAnchorScan_none_gt (jsDateUTC year 0 1) series hsort hscan,
          (firstValueInYear_eq_none_iff year series).mp hnone⟩
    · rintro ⟨h1, h2⟩
      simp only [getYearAnchorValue]
      rw [yearAnchorScan_of_gt (jsDateUTC year 0 1) series none h1]
      exact (firstValueInYear_eq_none_iff year series).mpr h2

/-- C7 witness: in `[Dec 31 2024 ↦ 2, Jan 5 2025 ↦ 3]` the 2025 anchor is
the `Dec 31 2024` value `2` (last point at or before January 1 2025). -/
theorem getYearAnchorValue_characterization_witness :
    getYearAnchorValue [⟨jsDateUTC 2024 11 31, 2⟩, ⟨jsDateUTC 2025 0 5, 3⟩] 2025 = some 2 :=
  (getYearAnchorValue_characterization [⟨jsDateUTC 2024 11 31, 2⟩, ⟨jsDateUTC 2025 0 5, 3⟩]
      2025 (by decide)).1 0 ⟨jsDateUTC 2024 11 31, 2⟩ (by decide) (by decide) (by decide)

/-! ## Cycle extremum -/

lemma foldl_skip_filter (W : Int) (f : Option PricePoint → PricePoint → Option PricePoint) :
    ∀ (l : List PricePoint) (acc : Option PricePoint),
      l.foldl (fun b p => if p.time < W then b else f b p) acc =
        (l.filter (fun p => decide (W ≤ p.time))).foldl f acc := by
  intro l
  induction l with
  | nil => intro acc; rfl
  | cons p l ih =>
    intro acc
    rw [List.foldl_cons, List.filter_cons]
    by_cases hw : p.time < W
    · rw [if_pos hw]
      have hd : decide (W ≤ p.time) = false := by simp [not_le.mpr hw]
      rw [hd]
      exact ih acc
    · rw [if_neg hw]
      have hd : decide (W ≤ p.time) = true := by simp [not_lt.mp hw]
      rw [hd]
      simp only [if_pos]
      rw [List.foldl_cons]
      exact ih (f acc p)

lemma cycle_best_some (r : PricePoint → PricePoint → Prop) [DecidableRel r] :
    ∀ (l : List PricePoint) (b0 : PricePoint),
      ∃ b', l.foldl (fun best p => match best with
        | none => some p
        | some b => if r p b then some p else some b) (some b0) = some b' := by
  intro l
  induction l with
  | nil => intro b0; exact ⟨b0, rfl⟩
  | cons p l ih =>
    intro b0
    rw [List.foldl_cons]
    by_cases hr : r p b0
    · simpa [hr] using ih p
    · simpa [hr] using ih b0

lemma cycle_best_none_iff (r : PricePoint → PricePoint → Prop) [DecidableRel r] :
    ∀ l : List PricePoint,
      (l.foldl (fun best p => match best with
        | none => some p
        | some b => if r p b then some p else some b) none = none) ↔ l = [] := by
  intro l
  cases l with
  | nil => simp
  | cons p l =>
    rw [List.foldl_cons]
    simp only [List.cons_ne_nil, iff_false]
    obtain ⟨b', hb'⟩ := cycle_best_some r l p
    intro h
    rw [hb'] at h
    exact Option.noConfusion h

lemma cycle_best_core (r : PricePoint → PricePoint → Prop) [DecidableRel r]
    (hirr : ∀ x, ¬ r x x) (htr : ∀ x y z, r x y → r y z → r x z)
    (hneg : ∀ x y z, ¬ r x y → ¬ r y z → ¬ r x z) :
    ∀ (l : List PricePoint) (b0 b' : PricePoint),
      l.foldl (fun best p => match best with
        | none => some p
        | some b => if r p b then some p else some b) (some b0) = some b' →
      (b' = b0 ∨ b' ∈ l) ∧ (∀ q ∈ l, ¬ r q b') ∧ ¬ r b0 b' := by
  intro l
  induction l with
  | nil =>
    intro b0 b' h
    have hb : b0 = b' := Option.some.inj h
    subst hb
    exact ⟨Or.inl rfl, fun q hq => absurd hq (List.not_mem_nil q), hirr b0⟩
  | cons p l ih =>
    intro b0 b' h
    rw [List.foldl_cons] at h
    dsimp only at h
    by_cases hr : r p b0
    · rw [if_pos hr] at h
      obtain ⟨hmem, hall, hpb⟩ := ih p b' h
      refine ⟨?_, ?_, ?_⟩
      · rcases hmem with he | hm
        · exact Or.inr (he ▸ List.mem_cons_self p l)
        · exact Or.inr (List.mem_cons_of_mem p hm)
      · intro q hq
        rcases List.mem_cons.mp hq with he | hm
        · exact he ▸ hpb
        · exact hall q hm
      · intro hb0
        exact hpb (htr p b0 b' hr hb0)
    · rw [if_neg hr] at h
      obtain ⟨hmem, hall, hb0⟩ := ih b0 b' h
      refine ⟨?_, ?_, hb0⟩
      · rcases hmem with he | hm
        · exact Or.inl he
        · exact Or.inr (List.mem_cons_of_mem p hm)
      · intro q hq
        rcases List.mem_cons.mp hq with he | hm
        · exact he ▸ hneg p b0 b' hr hb0
        · exact hall q hm

lemma cycle_best_from_none (r : PricePoint → PricePoint → Prop) [DecidableRel r]
    (hirr : ∀ x, ¬ r x x) (htr : ∀ x y z, r x y → r y z → r x z)
    (hneg : ∀ x y z, ¬ r x y → ¬ r y z → ¬ r x z) :
    ∀ (l : List PricePoint) (b' : PricePoint),
      l.foldl (fun best p => match best with
        | none => some p
        | some b => if r p b then some p else some b) none = some b' →
      b' ∈ l ∧ ∀ q ∈ l, ¬ r q b' := by
  intro l b' h
  cases l with
  | nil => exact Option.noConfusion h
  | cons p l =>
    rw [List.foldl_cons] at h
    dsimp only at h
    obtain ⟨hmem, hall, hpb⟩ := cycle_best_core r hirr htr hneg l p b' h
    refine ⟨?_, ?_⟩
    · rcases hmem with he | hm
      · exact he ▸ List.mem_cons_self p l
      · exact List.mem_cons_of_mem p hm
    · intro q hq
      rcases List.mem_cons.mp hq with he | hm
      · exact he ▸ hpb
      · exact hall q hm

lemma betterHigh_irrefl (x : PricePoint) :
    ¬ (x.value > x.value ∨ (x.value = x.value ∧ x.time > x.time)) := by
  simp

lemma betterHigh_trans (x y z : PricePoint)
    (h1 : x.value > y.value ∨ (x.value = y.value ∧ x.time > y.time))
    (h2 : y.value > z.value ∨ (y.value = z.value ∧ y.time > z.time)) :
    x.value > z.value ∨ (x.value = z.value ∧ x.time > z.time) := by
  rcases h1 with h1 | ⟨h1v, h1t⟩ <;> rcases h2 with h2 | ⟨h2v, h2t⟩
  · exact Or.inl (lt_trans h2 h1)
  · exact Or.inl (h2v ▸ h1)
  · exact Or.inl (h1v ▸ h2)
  · exact Or.inr ⟨h1v.trans h2v, lt_trans h2t h1t⟩

lemma betterHigh_negtrans (x y z : PricePoint)
    (h1 : ¬ (x.value > y.value ∨ (x.value = y.value ∧ x.time > y.time)))
    (h2 : ¬ (y.value > z.value ∨ (y.value = z.value ∧ y.time > z.time))) :
    ¬ (x.value > z.value ∨ (x.value = z.value ∧ x.time > z.time)) := by
  push_neg at h1 h2 ⊢
  obtain ⟨h1v, h1t⟩ := h1
  obtain ⟨h2v, h2t⟩ := h2
  refine ⟨le_trans h1v h2v, ?_⟩
  intro hxz
  have hxy : x.value = y.value := le_antisymm h1v (hxz ▸ h2v)
  have hyz : y.value = z.value := hxy ▸ hxz
  exact le_trans (h1t hxy) (h2t hyz)

lemma betterLow_irrefl (x : PricePoint) :
    ¬ (x.value < x.value ∨ (x.value = x.value ∧ x.time > x.time)) := by
  simp

lemma betterLow_trans (x y z : PricePoint)
    (h1 : x.value < y.value ∨ (x.value = y.value ∧ x.time > y.time))
    (h2 : y.value < z.value ∨ (y.value = z.value ∧ y.time > z.time)) :
    x.value < z.value ∨ (x.value = z.value ∧ x.time > z.time) := by
  rcases h1 with h1 | ⟨h1v, h1t⟩ <;> rcases h2 with h2 | ⟨h2v, h2t⟩
  · exact Or.inl (lt_trans h1 h2)
  · exact Or.inl (h2v ▸ h1)
  · exact Or.inl (h1v ▸ h2)
  · exact Or.inr ⟨h1v.trans h2v, lt_trans h2t h1t⟩

lemma betterLow_negtrans (x y z : PricePoint)
    (h1 : ¬ (x.value < y.value ∨ (x.value = y.value ∧ x.time > y.time)))
    (h2 : ¬ (y.value < z.value ∨ (y.value = z.value ∧ y.time > z.time))) :
    ¬ (x.value < z.value ∨ (x.value = z.value ∧ x.time > z.time)) := by
  push_neg at h1 h2 ⊢
  obtain ⟨h1v, h1t⟩ := h1
  obtain ⟨h2v, h2t⟩ := h2
  refine ⟨le_trans h2v h1v, ?_⟩
  intro hxz
  have hxy : x.value = y.value := le_antisymm (hxz ▸ h2v) h1v
  have hyz : y.value = z.value := hxy ▸ hxz
  exact le_trans (h1t hxy) (h2t hyz)

/-- C8: `getCyclePoint` considers exactly the points at indices
`0..activeIndex` whose time is at or after the cycle window start
(`activeTime` shifted back `cycleMonths` calendar months), returns a point
of maximum (mode `high`) or minimum (mode `low`) value among them with
value ties broken toward the most recent time, and returns `none` exactly
when `activeIndex < 0` or no point qualifies. (`activeIndex` must index
into the series: beyond it the original code would fault.) -/
theorem getCyclePoint_characterization
    (series : List PricePoint) (activeIndex : Int) (mode : CycleMode)
    (cycleMonths activeTime : Int)
    (hlen : activeIndex < (series.length : Int)) :
    (activeIndex < 0 → getCyclePoint series activeIndex mode cycleMonths activeTime = none) ∧
    (getCyclePoint series activeIndex mode cycleMonths activeTime = none ↔
      (activeIndex < 0 ∨ ∀ p ∈ series.take (activeIndex.toNat + 1),
        p.time < getWindowStartTime activeTime cycleMonths)) ∧
    (∀ b, getCyclePoint series activeIndex mode cycleMonths activeTime = some b →
      b ∈ series.take (activeIndex.toNat + 1) ∧
      getWindowStartTime activeTime cycleMonths ≤ b.time ∧
      ∀ q ∈ series.take (activeIndex.toNat + 1),
        getWindowStartTime activeTime cycleMonths ≤ q.time →
        ((mode = CycleMode.high →
            q.value ≤ b.value ∧ (q.value = b.value → q.time ≤ b.time)) ∧
          (mode = CycleMode.low →
            b.value ≤ q.value ∧ (q.value = b.value → q.time ≤ b.time)))) := by
  by_cases hai : activeIndex < 0
  · refine ⟨fun _ => ?_, ?_, ?_⟩
    · simp only [getCyclePoint]
      rw [if_pos hai]
    · simp only [getCyclePoint]
      rw [if_pos hai]
      simp [hai]
    · intro b hb
      simp only [getCyclePoint] at hb
      rw [if_pos hai] at hb
      exact Option.noConfusion hb
  · cases mode with
    | high =>
      refine ⟨fun h => absurd h hai, ?_, ?_⟩
      · simp only [getCyclePoint]
        rw [if_neg hai]
        rw [foldl_skip_filter (getWindowStartTime activeTime cycleMonths)
          (fun best p => match best with
            | none => some p
            | some b => if p.value > b.value ∨ (p.value = b.value ∧ p.time > b.time)
                then some p else some b)]
        rw [cycle_best_none_iff]
        rw [List.filter_eq_nil_iff]
        simp [hai, not_le]
      · intro b hb
        simp only [getCyclePoint] at hb
        rw [if_neg hai] at hb
        rw [foldl_skip_filter (getWindowStartTime activeTime cycleMonths)
          (fun best p => match best with
            | none => some p
            | some b => if p.value > b.value ∨ (p.value = b.value ∧ p.time > b.time)
                then some p else some b)] at hb
        obtain ⟨hmem, hall⟩ := cycle_best_from_none
          (fun p b => p.value > b.value ∨ (p.value = b.value ∧ p.time > b.time))
          betterHigh_irrefl betterHigh_trans betterHigh_negtrans _ b hb
        obtain ⟨hmemT, hWb⟩ := List.mem_filter.mp hmem
        refine ⟨hmemT, by simpa using hWb, ?_⟩
        intro q hq hWq
        have hq' : q ∈ (series.take (activeIndex.toNat + 1)).filter
            (fun p => decide (getWindowStartTime activeTime cycleMonths ≤ p.time)) :=
          List.mem_filter.mpr ⟨hq, by simpa using hWq⟩
        have hnb := hall q hq'
        push_neg at hnb
        exact ⟨fun _ => hnb, fun habs => absurd habs (by simp)⟩
    | low =>
      refine ⟨fun h => absurd h hai, ?_, ?_⟩
      · simp only [getCyclePoint]
        rw [if_neg hai]
        rw [foldl_skip_filter (getWindowStartTime activeTime cycleMonths)
          (fun best p => match best with
            | none => some p
            | some b => if p.value < b.value ∨ (p.value = b.value ∧ p.time > b.time)
                then some p else some b)]
        rw [cycle_best_none_iff]
        rw [List.filter_eq_nil_iff]
        simp [hai, not_le]
      · intro b hb
        simp only [getCyclePoint] at hb
        rw [if_neg hai] at hb
        rw [foldl_skip_filter (getWindowStartTime activeTime cycleMonths)
          (fun best p => match best with
            | none => some p
            | some b => if p.value < b.value ∨ (p.value = b.value ∧ p.time > b.time)
                then some p else some b)] at hb
        obtain ⟨hmem, hall⟩ := cycle_best_from_none
          (fun p b => p.value < b.value ∨ (p.value = b.value ∧ p.time > b.time))
          betterLow_irrefl betterLow_trans betterLow_negtrans _ b hb
        obtain ⟨hmemT, hWb⟩ := List.mem_filter.mp hmem
        refine ⟨hmemT, by simpa using hWb, ?_⟩
        intro q hq hWq
        have hq' : q ∈ (series.take (activeIndex.toNat + 1)).filter
            (fun p => decide (getWindowStartTime activeTime cycleMonths ≤ p.time)) :=
          List.mem_filter.mpr ⟨hq, by simpa using hWq⟩
        have hnb := hall q hq'
        push_neg at hnb
        exact ⟨fun habs => absurd habs (by simp), fun _ => hnb⟩

/-- C8 witness: over three points in a 12-month window ending
`Jan 15 2025`, the cycle high of the two tied maxima (both `5`) is the
more recent one (`Oct 1 2024`). -/
theorem getCyclePoint_characterization_witness :
    (⟨jsDateUTC 2024 9 1, 5⟩ : PricePoint) ∈
      ([⟨jsDateUTC 2024 6 1, 5⟩, ⟨jsDateUTC 2024 9 1, 5⟩, ⟨jsDateUTC 2025 0 2, 3⟩] :
        List PricePoint).take ((2 : Int).toNat + 1) :=
  ((getCyclePoint_characterization
      [⟨jsDateUTC 2024 6 1, 5⟩, ⟨jsDateUTC 2024 9 1, 5⟩, ⟨jsDateUTC 2025 0 2, 3⟩]
      2 CycleMode.high 12 (jsDateUTC 2025 0 15) (by decide)).2.2
    ⟨jsDateUTC 2024 9 1, 5⟩ (by decide)).1

/-! ## Quarterly implied-cut ladder -/

/-- One link of the cut ladder: `(implied - previous) * 100` basis points,
`none` when either side is missing. -/
def chainLink (prev implied : Option ℚ) : Option ℚ :=
  match prev, implied with
  | some p, some c => some ((c - p) * 100)
  | _, _ => none

/-- The futures-implied rate looked up for a `(quarter, year)` pair: the
contract month after the quarter's close (rolling into the next year after
Q4). -/
def impliedRateOf (rates : Int → Int → Option ℚ) (qy : Int × Int) : Option ℚ :=
  rates (monthAfterQuarterClose qy.1) (if qy.1 = 4 then qy.2 + 1 else qy.2)

/-- Closed form of the rows the ladder fold produces. -/
def chainRows (rates : Int → Int → Option ℚ) (prev : Option ℚ) :
    List (Int × Int) → List QuarterRow
  | [] => []
  | qy :: rest =>
    ⟨formatQuarterLabel qy.1 qy.2, chainLink prev (impliedRateOf rates qy)⟩ ::
      chainRows rates (impliedRateOf rates qy) rest

/-- Closed form of the ladder fold's `hasMissing` flag. -/
def chainMissing (rates : Int → Int → Option ℚ) (prev : Option ℚ) :
    List (Int × Int) → Bool
  | [] => false
  | qy :: rest =>
    (prev.isNone || (impliedRateOf rates qy).isNone) ||
      chainMissing rates (impliedRateOf rates qy) rest

/-- Closed form of the ladder fold's final `previousRate`. -/
def chainLast (rates : Int → Int → Option ℚ) (prev : Option ℚ) :
    List (Int × Int) → Option ℚ
  | [] => prev
  | qy :: rest => chainLast rates (impliedRateOf rates qy) rest

lemma quartly_foldl_eq (rates : Int → Int → Option ℚ) :
    ∀ (l : List (Int × Int)) (prev : Option ℚ) (hm : Bool) (acc : List QuarterRow),
      l.foldl (fun st qy =>
        let impliedMonth := monthAfterQuarterClose qy.1
        let impliedYear := if qy.1 = 4 then qy.2 + 1 else qy.2
        let impliedRate := rates impliedMonth impliedYear
        match st.1, impliedRate with
        | some p, some c =>
          (some c, st.2.1, st.2.2 ++ [⟨formatQuarterLabel qy.1 qy.2, some ((c - p) * 100)⟩])
        | _, _ =>
          (impliedRate, true, st.2.2 ++ [⟨formatQuarterLabel qy.1 qy.2, none⟩]))
        (prev, hm, acc) =
      (chainLast rates prev l, hm || chainMissing rates prev l, acc ++ chainRows rates prev l) := by
  intro l
  induction l with
  | nil =>
    intro prev hm acc
    simp [chainLast, chainMissing, chainRows]
  | cons qy rest ih =>
    intro prev hm acc
    rw [List.foldl_cons]
    dsimp only
    rcases hprev : prev with _ | p <;>
      rcases hir : rates (monthAfterQuarterClose qy.1) (if qy.1 = 4 then qy.2 + 1 else qy.2)
        with _ | c <;>
      simp only [chainLast, chainMissing, chainRows, impliedRateOf, hir, ih,
        Option.isNone_none, Option.isNone_some, Bool.true_or, Bool.false_or,
        Bool.or_true, Bool.or_false, Bool.or_assoc, List.append_assoc,
        List.singleton_append, List.cons_append, List.nil_append, chainLink]
    all_goals simp

/-- `List.range 4` as a literal. -/
lemma range_four : List.range 4 = [0, 1, 2, 3] := by decide

/-- The quarter sequence always has exactly four entries. -/
lemma getQuarterSequence_shape (t : Int) :
    ∃ a b c d : Int × Int, getQuarterSequence t = [a, b, c, d] := by
  simp only [getQuarterSequence]
  rw [range_four]
  exact ⟨_, _, _, _, rfl⟩

/-- Concrete futures table for the C1 counterexample: links present for
April 2025, October 2025 and January 2026, missing for July 2025. -/
def exampleRates (m y : Int) : Option ℚ :=
  if m = 4 ∧ y = 2025 then some 4
  else if m = 10 ∧ y = 2025 then some (7/2)
  else if m = 1 ∧ y = 2026 then some (13/4)
  else none

/-- C1 counterexample: active date Jan 15 2025, spot EFFR `4.33`, Q2's
futures link (July 2025) missing. The code nulls Q2 and Q3, but Q4 is
computed (`-25`bp) from the surviving Q3→Q4 links — the quarters after a
missing link are not all null, refuting the claim as stated (the running
total is still null). -/
theorem quartlyCuts_missing_link_counterexample :
    (quartlyCutsCompute (jsDateUTC 2025 0 15) (some (433/100)) exampleRates).1.map
        (fun r => r.cutsBps) = [some (-33), none, none, some (-25)] ∧
      exampleRates 7 2025 = none ∧
      (quartlyCutsCompute (jsDateUTC 2025 0 15) (some (433/100)) exampleRates).2 = none := by
  have hq : getQuarterSequence (jsDateUTC 2025 0 15) = [(1, 2025), (2, 2025), (3, 2025), (4, 2025)] := by
    decide
  refine ⟨?_, by decide, ?_⟩ <;>
    simp only [quartlyCutsCompute] <;>
    rw [hq, quartly_foldl_eq] <;>
    simp [chainRows, chainMissing, chainLink, impliedRateOf, monthAfterQuarterClose,
      exampleRates] <;>
    norm_num

/-- C1 (amended): the ladder is chained from the aligned spot EFFR value:
quarter `k`’s value is `(implied_k - previous_k) * 100` where
`previous_0` is the spot rate and `previous_(k+1) = implied_k`; a quarter
is `null` exactly when its own implied rate or its previous link is
missing (so a missing link nulls that quarter and the next, and later
quarters recover); the running total is the sum of the four values when
the spot rate and all four implied rates are present, and `null` whenever
any link is missing. -/
theorem quartlyCutsCompute_chain (activeTime : Int) (alignedEffr : Option ℚ)
    (rates : Int → Int → Option ℚ) :
    ∃ qs0 qs1 qs2 qs3 : Int × Int,
      getQuarterSequence activeTime = [qs0, qs1, qs2, qs3] ∧
      (quartlyCutsCompute activeTime alignedEffr rates).1.map (fun r => r.cutsBps) =
        [chainLink alignedEffr (impliedRateOf rates qs0),
         chainLink (impliedRateOf rates qs0) (impliedRateOf rates qs1),
         chainLink (impliedRateOf rates qs1) (impliedRateOf rates qs2),
         chainLink (impliedRateOf rates qs2) (impliedRateOf rates qs3)] ∧
      (quartlyCutsCompute activeTime alignedEffr rates).2 =
        (if alignedEffr.isSome ∧ (impliedRateOf rates qs0).isSome ∧
            (impliedRateOf rates qs1).isSome ∧ (impliedRateOf rates qs2).isSome ∧
            (impliedRateOf rates qs3).isSome then
          some ((chainLink alignedEffr (impliedRateOf rates qs0)).getD 0 +
            ((chainLink (impliedRateOf rates qs0) (impliedRateOf rates qs1)).getD 0 +
              ((chainLink (impliedRateOf rates qs1) (impliedRateOf rates qs2)).getD 0 +
                (chainLink (impliedRateOf rates qs2) (impliedRateOf rates qs3)).getD 0)))
        else none) := by
  obtain ⟨qs0, qs1, qs2, qs3, hqs⟩ := getQuarterSequence_shape activeTime
  refine ⟨qs0, qs1, qs2, qs3, hqs, ?_, ?_⟩
  · simp only [quartlyCutsCompute]
    rw [hqs, quartly_foldl_eq]
    simp [chainRows]
  · simp only [quartlyCutsCompute]
    rw [hqs, quartly_foldl_eq]
    rcases alignedEffr with _ | e <;>
      rcases h0 : impliedRateOf rates qs0 with _ | r0 <;>
      rcases h1 : impliedRateOf rates qs1 with _ | r1 <;>
      rcases h2 : impliedRateOf rates qs2 with _ | r2 <;>
      rcases h3 : impliedRateOf rates qs3 with _ | r3 <;>
      simp_all [chainMissing, chainRows, chainLink] <;>
      ring

/-! ## Date-token parsing -/

/-- Join character lists with `'/'` separators (inverse of
`splitOnSlash`). -/
def joinSlash : List (List Char) → List Char
  | [] => []
  | [p] => p
  | p :: ps => p ++ '/' :: joinSlash ps

lemma splitOnSlash_ne_nil : ∀ cs : List Char, splitOnSlash cs ≠ [] := by
  intro cs
  cases cs with
  | nil => exact fun h => List.noConfusion h
  | cons c rest =>
    by_cases hc : c = '/'
    · subst hc
      exact fun h => List.noConfusion h
    · simp only [splitOnSlash]
      cases hsp : splitOnSlash rest with
      | nil => exact fun h => List.noConfusion h
      | cons p ps => exact fun h => List.noConfusion h

lemma splitOnSlash_no_slash_eq (cs : List Char) (h : '/' ∉ cs) : splitOnSlash cs = [cs] := by
  induction cs with
  | nil => rfl
  | cons c rest ih =>
    have hc : ¬ c = '/' := fun he => h (he ▸ List.mem_cons_self c rest)
    have hr : '/' ∉ rest := fun hm => h (List.mem_cons_of_mem c hm)
    simp only [splitOnSlash]
    rw [ih hr]

lemma splitOnSlash_parts_no_slash : ∀ (cs : List Char) (p : List Char),
    p ∈ splitOnSlash cs → '/' ∉ p := by
  intro cs
  induction cs with
  | nil =>
    intro p hp
    rw [List.mem_singleton.mp hp]
    exact List.not_mem_nil _
  | cons c rest ih =>
    intro p hp
    by_cases hc : c = '/'
    · subst hc
      simp only [splitOnSlash] at hp
      rcases List.mem_cons.mp hp with he | hm
      · rw [he]; exact List.not_mem_nil _
      · exact ih p hm
    · simp only [splitOnSlash] at hp
      cases hsp : splitOnSlash rest with
      | nil =>
        rw [hsp] at hp
        rw [List.mem_singleton.mp hp]
        intro hmem
        rcases List.mem_cons.mp hmem with he | hm
        · exact hc he.symm
        · exact List.not_mem_nil _ hm
      | cons q qs =>
        rw [hsp] at hp
        rcases List.mem_cons.mp hp with he | hm
        · rw [he]
          intro hmem
          rcases List.mem_cons.mp hmem with he' | hm'
          · exact hc he'.symm
          · exact ih q (by rw [hsp]; exact List.mem_cons_self q qs) hm'
        · exact ih p (by rw [hsp]; exact List.mem_cons_of_mem q hm)

lemma joinSlash_splitOnSlash : ∀ cs : List Char, joinSlash (splitOnSlash cs) = cs := by
  intro cs
  induction cs with
  | nil => rfl
  | cons c rest ih =>
    by_cases hc : c = '/'
    · subst hc
      show joinSlash ([] :: splitOnSlash rest) = '/' :: rest
      cases hsp : splitOnSlash rest with
      | nil => exact absurd hsp (splitOnSlash_ne_nil rest)
      | cons q qs =>
        rw [hsp] at ih
        show [] ++ '/' :: joinSlash (q :: qs) = '/' :: rest
        rw [List.nil_append, ih]
    · simp only [splitOnSlash]
      cases hsp : splitOnSlash rest with
      | nil => exact absurd hsp (splitOnSlash_ne_nil rest)
      | cons q qs =>
        rw [hsp] at ih
        cases qs with
        | nil =>
          show c :: q = c :: rest
          rw [show joinSlash [q] = q from rfl] at ih
          rw [ih]
        | cons q2 qs2 =>
          show (c :: q) ++ '/' :: joinSlash (q2 :: qs2) = c :: rest
          rw [List.cons_append, ← ih]
          rfl

lemma splitOnSlash_of_decomp (a b : List Char) (ha : '/' ∉ a) :
    splitOnSlash (a ++ '/' :: b) = a :: splitOnSlash b := by
  induction a with
  | nil => rfl
  | cons c a' ih =>
    have hc : ¬ c = '/' := fun he => ha (he ▸ List.mem_cons_self c a')
    have ha' : '/' ∉ a' := fun hm => ha (List.mem_cons_of_mem c hm)
    rw [List.cons_append]
    simp only [splitOnSlash]
    rw [ih ha']

/-- The `^(\d{1,2})\/(\d{1,2})\/(\d{4})$` pattern, declaratively: the
character list splits as month digits `a` (1–2), day digits `b` (1–2),
year digits `c` (exactly 4), with the three numeric values read off. -/
def UsDateShape (cs : List Char) (mo d y : Nat) : Prop :=
  ∃ a b c : List Char,
    cs = a ++ '/' :: (b ++ '/' :: c) ∧
    allDigits a ∧ allDigits b ∧ allDigits c ∧
    1 ≤ a.length ∧ a.length ≤ 2 ∧ 1 ≤ b.length ∧ b.length ≤ 2 ∧ c.length = 4 ∧
    mo = digitsToNat a ∧ d = digitsToNat b ∧ y = digitsToNat c

lemma no_slash_of_allDigits (a : List Char) (h : allDigits a) : '/' ∉ a := by
  intro hm
  have := List.all_eq_true.mp h _ hm
  simp at this

/-- C2 counterexample: the token `13/1/2025` has month 13 (outside 1–12)
yet is not dropped — it matches the digit pattern and `Date.UTC`
normalization converts it to January 1 2026. -/
theorem parseUsDate_month13_counterexample :
    parseUsDateToUtcTime "13/1/2025" = some (jsDateUTC 2026 0 1) ∧
      parseUsDateToUtcTime "13/1/2025" ≠ none := by decide

/-- C2 (amended): `parseUsDateToUtcTime` accepts exactly the tokens whose
trimmed, quote-stripped text matches the digit pattern
`\d{1,2}/\d{1,2}/\d{4}` — with no range check on month or day — and
converts them through `Date.UTC(year, month - 1, day)` (ECMAScript
normalization, so out-of-range months and days roll over into adjacent
dates rather than being dropped); every token failing the digit pattern is
dropped, yielding no point and no error. -/
theorem parseUsDate_pattern_characterization (raw : String) :
    (∀ mo d y : Nat, UsDateShape (stripOuterQuotesList (jsTrim raw).data) mo d y →
      parseUsDateToUtcTime raw = some (jsDateUTC (y : Int) ((mo : Int) - 1) (d : Int))) ∧
    (parseUsDateToUtcTime raw = none ↔
      ¬ ∃ mo d y : Nat, UsDateShape (stripOuterQuotesList (jsTrim raw).data) mo d y) := by
  have hforward : ∀ mo d y : Nat, UsDateShape (stripOuterQuotesList (jsTrim raw).data) mo d y →
      parseUsDateToUtcTime raw = some (jsDateUTC (y : Int) ((mo : Int) - 1) (d : Int)) := by
    rintro mo d y ⟨a, b, c, hcs, hda, hdb, hdc, hla1, hla2, hlb1, hlb2, hlc, hmo, hd, hy⟩
    have hsplit : splitOnSlash (stripOuterQuotesList (jsTrim raw).data) = [a, b, c] := by
      rw [hcs, splitOnSlash_of_decomp a _ (no_slash_of_allDigits a hda),
        splitOnSlash_of_decomp b _ (no_slash_of_allDigits b hdb),
        splitOnSlash_no_slash_eq c (no_slash_of_allDigits c hdc)]
    simp only [parseUsDateToUtcTime]
    rw [hsplit]
    dsimp only
    rw [if_pos ⟨hla1, hla2, hda, hlb1, hlb2, hdb, hlc, hdc⟩]
    rw [hmo, hd, hy]
  refine ⟨hforward, ?_, ?_⟩
  · intro hnone hex
    obtain ⟨mo, d, y, hshape⟩ := hex
    rw [hforward mo d y hshape] at hnone
    exact Option.noConfusion hnone
  · intro hnotex
    simp only [parseUsDateToUtcTime]
    rcases hsp : splitOnSlash (stripOuterQuotesList (jsTrim raw).data) with
      _ | ⟨a, _ | ⟨b, _ | ⟨c, _ | ⟨e, rest⟩⟩⟩⟩
    · rfl
    · rfl
    · rfl
    · dsimp only
      rw [if_neg]
      intro hcond
      obtain ⟨hla1, hla2, hda, hlb1, hlb2, hdb, hlc, hdc⟩ := hcond
      refine hnotex ⟨digitsToNat a, digitsToNat b, digitsToNat c, a, b, c, ?_,
        hda, hdb, hdc, hla1, hla2, hlb1, hlb2, hlc, rfl, rfl, rfl⟩
      have hj := joinSlash_splitOnSlash (stripOuterQuotesList (jsTrim raw).data)
      rw [hsp] at hj
      rw [← hj]
      rfl
    · rfl

/-- C2 witness: the well-formed token `1/15/2025` parses to UTC midnight
of January 15 2025. -/
theorem parseUsDate_pattern_characterization_witness :
    parseUsDateToUtcTime "1/15/2025" = some (jsDateUTC 2025 0 15) := by
  have h := (parseUsDate_pattern_characterization "1/15/2025").1 1 15 2025
    ⟨['1'], ['1', '5'], ['2', '0', '2', '5'], by decide, by decide, by decide, by decide,
      by decide, by decide, by decide, by decide, by decide, by decide, by decide, by decide⟩
  norm_num at h
  exact h

/-- C5: wide-format round trip. Parsing a treasury CSV whose quoted header
maps "1 MO" and "3 MO" (with an unmapped `XXX` column between them) and
whose data row is `1/15/2025,4.50,9.99,4.75` yields the point
`(2025-01-15 UTC midnight, 4.50)` in `US1M` and `(…, 4.75)` in `US3M`,
while the unmapped column's value lands nowhere (`US2M` stays empty). -/
theorem parseTreasurySeries_round_trip :
    parseTreasurySeries ["Date,\"1 MO\",XXX,\"3 MO\"\n1/15/2025,4.50,9.99,4.75"]
        TreasuryInstrumentKey.US1M =
      [⟨daysFromCivil 2025 1 15 * DAY_MS, 9/2⟩] ∧
    parseTreasurySeries ["Date,\"1 MO\",XXX,\"3 MO\"\n1/15/2025,4.50,9.99,4.75"]
        TreasuryInstrumentKey.US3M =
      [⟨daysFromCivil 2025 1 15 * DAY_MS, 19/4⟩] ∧
    parseTreasurySeries ["Date,\"1 MO\",XXX,\"3 MO\"\n1/15/2025,4.50,9.99,4.75"]
        TreasuryInstrumentKey.US2M = [] := by
  refine ⟨?_, ?_, rfl⟩
  · rw [show parseTreasurySeries ["Date,\"1 MO\",XXX,\"3 MO\"\n1/15/2025,4.50,9.99,4.75"]
          TreasuryInstrumentKey.US1M =
        [⟨daysFromCivil 2025 1 15 * DAY_MS, (4 : ℚ) + 50 / 10 ^ (2 : ℕ)⟩] from rfl]
    simp only [List.cons.injEq, PricePoint.mk.injEq]
    norm_num
  · rw [show parseTreasurySeries ["Date,\"1 MO\",XXX,\"3 MO\"\n1/15/2025,4.50,9.99,4.75"]
          TreasuryInstrumentKey.US3M =
        [⟨daysFromCivil 2025 1 15 * DAY_MS, (4 : ℚ) + 75 / 10 ^ (2 : ℕ)⟩] from rfl]
    simp only [List.cons.injEq, PricePoint.mk.injEq]
    norm_num

/-! ## Series invariants of the wide-format parser -/

lemma mapLookup_mapSet_self : ∀ (m : NumMap) (k : Int) (v : ℚ),
    mapLookup (mapSet m k v) k = some v := by
  intro m
  induction m with
  | nil => intro k v; simp [mapSet, mapLookup]
  | cons e rest ih =>
    intro k v
    obtain ⟨k', v'⟩ := e
    simp only [mapSet]
    by_cases hk : k' = k
    · rw [if_pos hk]
      simp [mapLookup]
    · rw [if_neg hk]
      simp only [mapLookup]
      rw [if_neg hk]
      exact ih k v

lemma mapLookup_mapSet_other : ∀ (m : NumMap) (k k' : Int) (v : ℚ), k' ≠ k →
    mapLookup (mapSet m k v) k' = mapLookup m k' := by
  intro m
  induction m with
  | nil =>
    intro k k' v h
    simp only [mapSet, mapLookup]
    rw [if_neg (fun he => h he.symm)]
  | cons e rest ih =>
    intro k k' v h
    obtain ⟨k0, v0⟩ := e
    simp only [mapSet]
    by_cases hk : k0 = k
    · rw [if_pos hk]
      simp only [mapLookup]
      rw [if_neg (fun he : k = k' => h he.symm), if_neg (fun he : k0 = k' => h (hk ▸ he).symm)]
    · rw [if_neg hk]
      simp only [mapLookup]
      by_cases h0 : k0 = k'
      · rw [if_pos h0, if_pos h0]
      · rw [if_neg h0, if_neg h0]
        exact ih k k' v h

lemma mapSet_keys : ∀ (m : NumMap) (k : Int) (v : ℚ),
    (mapSet m k v).map Prod.fst =
      if k ∈ m.map Prod.fst then m.map Prod.fst else m.map Prod.fst ++ [k] := by
  intro m
  induction m with
  | nil => intro k v; simp [mapSet]
  | cons e rest ih =>
    intro k v
    obtain ⟨k0, v0⟩ := e
    simp only [mapSet]
    by_cases hk : k0 = k
    · subst hk
      simp
    · rw [if_neg hk]
      simp only [List.map_cons]
      rw [ih k v]
      by_cases hmem : k ∈ rest.map Prod.fst
      · rw [if_pos hmem, if_pos (by simp [hmem])]
      · rw [if_neg hmem, if_neg ?hn]
        · simp
        case hn =>
          simp only [List.mem_cons]
          rintro (he | hm)
          · exact hk he.symm
          · exact hmem hm

lemma mapSet_keys_nodup (m : NumMap) (k : Int) (v : ℚ)
    (h : (m.map Prod.fst).Nodup) : ((mapSet m k v).map Prod.fst).Nodup := by
  rw [mapSet_keys m k v]
  by_cases hmem : k ∈ m.map Prod.fst
  · rw [if_pos hmem]; exact h
  · rw [if_neg hmem]
    refine h.append (List.nodup_singleton k) ?_
    intro a ha hak
    rw [List.mem_singleton.mp hak] at ha
    exact hmem ha

lemma mapLookup_eq_none_iff : ∀ (m : NumMap) (k : Int),
    mapLookup m k = none ↔ k ∉ m.map Prod.fst := by
  intro m
  induction m with
  | nil => intro k; simp [mapLookup]
  | cons e rest ih =>
    intro k
    obtain ⟨k0, v0⟩ := e
    simp only [mapLookup, List.map_cons, List.mem_cons]
    by_cases hk : k0 = k
    · rw [if_pos hk]
      simp [hk]
    · rw [if_neg hk]
      rw [ih k]
      constructor
      · intro h hcase
        rcases hcase with he | hm
        · exact hk he.symm
        · exact h hm
      · intro h hm
        exact h (Or.inr hm)

lemma mapLookup_eq_some_iff : ∀ (m : NumMap), (m.map Prod.fst).Nodup → ∀ (k : Int) (v : ℚ),
    (mapLookup m k = some v ↔ (k, v) ∈ m) := by
  intro m
  induction m with
  | nil => intro _ k v; simp [mapLookup]
  | cons e rest ih =>
    intro hnod k v
    obtain ⟨k0, v0⟩ := e
    obtain ⟨hk0, hrest⟩ := List.pairwise_cons.mp hnod
    simp only [mapLookup, List.mem_cons]
    by_cases hk : k0 = k
    · subst hk
      rw [if_pos rfl]
      constructor
      · intro h
        exact Or.inl (by rw [Option.some.inj h])
      · intro h
        rcases h with he | hm
        · rw [(Prod.mk.injEq _ _ _ _).mp he.symm |>.2]
        · have hkmem : k0 ∈ List.map Prod.fst rest := List.mem_map_of_mem Prod.fst hm
          exact absurd rfl (hk0 _ hkmem)
    · rw [if_neg hk]
      rw [ih hrest k v]
      constructor
      · exact fun h => Or.inr h
      · intro h
        rcases h with he | hm
        · exact absurd ((Prod.mk.injEq _ _ _ _).mp he.symm).1 hk
        · exact hm

lemma insertByTime_perm (p : Int × ℚ) : ∀ l : NumMap, List.Perm (insertByTime p l) (p :: l) := by
  intro l
  induction l with
  | nil => exact List.Perm.refl _
  | cons q rest ih =>
    simp only [insertByTime]
    by_cases hpq : p.1 ≤ q.1
    · rw [if_pos hpq]
    · rw [if_neg hpq]
      exact (ih.cons q).trans (List.Perm.swap p q rest)

lemma sortByTime_perm : ∀ l : NumMap, List.Perm (sortByTime l) l := by
  intro l
  induction l with
  | nil => exact List.Perm.refl _
  | cons p rest ih =>
    exact (insertByTime_perm p (sortByTime rest)).trans (ih.cons p)

lemma insertByTime_sorted (p : Int × ℚ) :
    ∀ l : NumMap, List.Pairwise (fun a b : Int × ℚ => a.1 ≤ b.1) l →
      List.Pairwise (fun a b : Int × ℚ => a.1 ≤ b.1) (insertByTime p l) := by
  intro l
  induction l with
  | nil => intro _; exact List.pairwise_singleton _ _
  | cons q rest ih =>
    intro h
    obtain ⟨hq, hrest⟩ := List.pairwise_cons.mp h
    simp only [insertByTime]
    by_cases hpq : p.1 ≤ q.1
    · rw [if_pos hpq]
      refine List.pairwise_cons.mpr ⟨?_, h⟩
      intro b hb
      rcases List.mem_cons.mp hb with he | hm
      · exact he ▸ hpq
      · exact le_trans hpq (hq b hm)
    · rw [if_neg hpq]
      refine List.pairwise_cons.mpr ⟨?_, ih hrest⟩
      intro b hb
      have hmem : b ∈ p :: rest := (insertByTime_perm p rest).mem_iff.mp hb
      rcases List.mem_cons.mp hmem with he | hm
      · exact he ▸ le_of_not_le hpq
      · exact hq b hm

lemma sortByTime_sorted : ∀ l : NumMap,
    List.Pairwise (fun a b : Int × ℚ => a.1 ≤ b.1) (sortByTime l) := by
  intro l
  induction l with
  | nil => exact List.Pairwise.nil
  | cons p rest ih => exact insertByTime_sorted p (sortByTime rest) ih

lemma sortByTime_strict (l : NumMap) (h : (l.map Prod.fst).Nodup) :
    List.Pairwise (fun a b : Int × ℚ => a.1 < b.1) (sortByTime l) := by
  have hs := sortByTime_sorted l
  have hnod : ((sortByTime l).map Prod.fst).Nodup :=
    (((sortByTime_perm l).map Prod.fst).nodup_iff).mpr h
  have hne : List.Pairwise (fun a b : Int × ℚ => a.1 ≠ b.1) (sortByTime l) :=
    List.pairwise_map.mp hnod
  exact (hs.and hne).imp fun hab => lt_of_le_of_ne hab.1 hab.2

/-- The value the series records at time `t` (`none` when absent). -/
def valueAt (l : List PricePoint) (t : Int) : Option ℚ :=
  (l.find? (fun p => decide (p.time = t))).map (fun p => p.value)

lemma valueAt_map_mk (t : Int) : ∀ al : NumMap,
    valueAt (al.map (fun e => ⟨e.1, e.2⟩)) t = mapLookup al t := by
  intro al
  induction al with
  | nil => rfl
  | cons e rest ih =>
    obtain ⟨k, v⟩ := e
    simp only [List.map_cons, valueAt, List.find?, mapLookup]
    by_cases hk : k = t
    · rw [if_pos hk]
      simp [hk]
    · rw [if_neg hk]
      have hd : decide ((⟨k, v⟩ : PricePoint).time = t) = false := by
        simp [hk]
      rw [hd]
      exact ih

lemma mapLookup_sortByTime (m : NumMap) (h : (m.map Prod.fst).Nodup) (t : Int) :
    mapLookup (sortByTime m) t = mapLookup m t := by
  have hnod : ((sortByTime m).map Prod.fst).Nodup :=
    (((sortByTime_perm m).map Prod.fst).nodup_iff).mpr h
  cases hm : mapLookup m t with
  | some v =>
    have hmem : (t, v) ∈ m := (mapLookup_eq_some_iff m h t v).mp hm
    exact (mapLookup_eq_some_iff (sortByTime m) hnod t v).mpr
      ((sortByTime_perm m).mem_iff.mpr hmem)
  | none =>
    have hnmem : t ∉ m.map Prod.fst := (mapLookup_eq_none_iff m t).mp hm
    refine (mapLookup_eq_none_iff (sortByTime m) t).mpr ?_
    intro hmem
    exact hnmem (((sortByTime_perm m).map Prod.fst).mem_iff.mp hmem)

lemma valueAt_dedupeSortSeries (m : NumMap) (h : (m.map Prod.fst).Nodup) (t : Int) :
    valueAt (dedupeSortSeries m) t = mapLookup m t := by
  unfold dedupeSortSeries
  rw [valueAt_map_mk t (sortByTime m)]
  exact mapLookup_sortByTime m h t

/-- Left-biased choice on optional values: the overwrite algebra of
`Map.set`. -/
def orFirst (a b : Option ℚ) : Option ℚ :=
  match a with
  | some v => some v
  | none => b

lemma orFirst_assoc (a b c : Option ℚ) :
    orFirst (orFirst a b) c = orFirst a (orFirst b c) := by
  cases a <;> rfl

/-- A state transformer whose final lookups see its own writes first and
the initial state second — the algebra of `Map.set` sequences whose write
list does not depend on the state. -/
def OverwritesTM (F : TreasuryMaps → TreasuryMaps) : Prop :=
  ∀ (m : TreasuryMaps) (tk : TreasuryInstrumentKey) (t : Int),
    mapLookup (F m tk) t = orFirst (mapLookup (F emptyTreasuryMaps tk) t) (mapLookup (m tk) t)

lemma overwritesTM_id : OverwritesTM (fun m => m) := by
  intro m tk t
  rfl

lemma overwritesTM_comp (F G : TreasuryMaps → TreasuryMaps)
    (hF : OverwritesTM F) (hG : OverwritesTM G) : OverwritesTM (fun m => G (F m)) := by
  intro m tk t
  rw [hG (F m) tk t, hG (F emptyTreasuryMaps) tk t, hF m tk t, orFirst_assoc]

lemma overwritesTM_set (tk0 : TreasuryInstrumentKey) (time : Int) (v : ℚ) :
    OverwritesTM (fun m => setTreasury m tk0 time v) := by
  intro m tk t
  simp only [setTreasury, emptyTreasuryMaps]
  by_cases htk : tk = tk0
  · subst htk
    rw [if_pos rfl, if_pos rfl]
    by_cases ht : t = time
    · subst ht
      rw [mapLookup_mapSet_self (m tk) t v, mapLookup_mapSet_self [] t v]
      rfl
    · rw [mapLookup_mapSet_other (m tk) time t v ht, mapLookup_mapSet_other [] time t v ht]
      rfl
  · rw [if_neg htk, if_neg htk]
    rfl

lemma overwritesTM_foldl {β : Type} (step : TreasuryMaps → β → TreasuryMaps)
    (hstep : ∀ b, OverwritesTM (fun m => step m b)) :
    ∀ l : List β, OverwritesTM (fun m => l.foldl step m) := by
  intro l
  induction l with
  | nil => exact overwritesTM_id
  | cons b rest ih =>
    exact overwritesTM_comp (fun m => step m b) (fun m => rest.foldl step m) (hstep b) ih

lemma overwritesTM_colStep (time : Int) (parts : List String)
    (col : Nat × TreasuryInstrumentKey) :
    OverwritesTM (fun m =>
      match jsNumber (jsTrim (stripOuterQuotes (parts.getD col.1 ""))) with
      | none => m
      | some value => setTreasury m col.2 time value) := by
  intro m tk t
  cases hv : jsNumber (jsTrim (stripOuterQuotes (parts.getD col.1 ""))) with
  | none => exact overwritesTM_id m tk t
  | some v => exact overwritesTM_set col.2 time v m tk t

lemma overwritesTM_row (columns : List (Nat × TreasuryInstrumentKey)) (line : String) :
    OverwritesTM (fun m => processTreasuryRow columns m line) := by
  intro m tk t
  simp only [processTreasuryRow]
  cases hp : parseUsDateToUtcTime ((parseCsvLine line).getD 0 "") with
  | none => exact overwritesTM_id m tk t
  | some time =>
    exact overwritesTM_foldl _ (fun col => overwritesTM_colStep time (parseCsvLine line) col)
      columns m tk t

lemma overwritesTM_file (rawCsv : String) :
    OverwritesTM (fun m => processTreasuryFile m rawCsv) := by
  intro m tk t
  simp only [processTreasuryFile]
  by_cases hlen :
      ((splitLinesJs (jsTrim rawCsv)).filter (fun l => 0 < (jsTrim l).length)).length < 2
  · rw [if_pos hlen, if_pos hlen]
    exact overwritesTM_id m tk t
  · rw [if_neg hlen, if_neg hlen]
    exact overwritesTM_foldl _
      (fun line => overwritesTM_row
        (headerColumns (((splitLinesJs (jsTrim rawCsv)).filter
          (fun l => 0 < (jsTrim l).length)).getD 0 "")) line)
      _ m tk t

/-- Every per-instrument map has pairwise distinct keys. -/
def KeysNodup (m : TreasuryMaps) : Prop := ∀ tk, ((m tk).map Prod.fst).Nodup

lemma keysNodup_empty : KeysNodup emptyTreasuryMaps := fun _ => List.nodup_nil

lemma keysNodup_set (m : TreasuryMaps) (tk0 : TreasuryInstrumentKey) (time : Int) (v : ℚ)
    (h : KeysNodup m) : KeysNodup (setTreasury m tk0 time v) := by
  intro tk
  simp only [setTreasury]
  by_cases htk : tk = tk0
  · rw [if_pos htk]
    exact mapSet_keys_nodup (m tk0) time v (h tk0)
  · rw [if_neg htk]
    exact h tk

lemma keysNodup_foldl {β : Type} (step : TreasuryMaps → β → TreasuryMaps)
    (hstep : ∀ m b, KeysNodup m → KeysNodup (step m b)) :
    ∀ (l : List β) (m : TreasuryMaps), KeysNodup m → KeysNodup (l.foldl step m) := by
  intro l
  induction l with
  | nil => exact fun m h => h
  | cons b rest ih => exact fun m h => ih (step m b) (hstep m b h)

lemma keysNodup_colStep (time : Int) (parts : List String) (m : TreasuryMaps)
    (col : Nat × TreasuryInstrumentKey) (h : KeysNodup m) :
    KeysNodup (match jsNumber (jsTrim (stripOuterQuotes (parts.getD col.1 ""))) with
      | none => m
      | some value => setTreasury m col.2 time value) := by
  cases hv : jsNumber (jsTrim (stripOuterQuotes (parts.getD col.1 ""))) with
  | none => exact h
  | some v => exact keysNodup_set m col.2 time v h

lemma keysNodup_row (columns : List (Nat × TreasuryInstrumentKey)) (m : TreasuryMaps)
    (line : String) (h : KeysNodup m) : KeysNodup (processTreasuryRow columns m line) := by
  simp only [processTreasuryRow]
  cases hp : parseUsDateToUtcTime ((parseCsvLine line).getD 0 "") with
  | none => exact h
  | some time =>
    exact keysNodup_foldl _ (fun m col hm => keysNodup_colStep time (parseCsvLine line) m col hm)
      columns m h

lemma keysNodup_file (m : TreasuryMaps) (rawCsv : String) (h : KeysNodup m) :
    KeysNodup (processTreasuryFile m rawCsv) := by
  simp only [processTreasuryFile]
  by_cases hlen :
      ((splitLinesJs (jsTrim rawCsv)).filter (fun l => 0 < (jsTrim l).length)).length < 2
  · rw [if_pos hlen]
    exact h
  · rw [if_neg hlen]
    exact keysNodup_foldl _ (fun m line hm => keysNodup_row _ m line hm) _ m h

lemma keysNodup_parse (files : List String) :
    KeysNodup (files.foldl processTreasuryFile emptyTreasuryMaps) :=
  keysNodup_foldl processTreasuryFile (fun m f hm => keysNodup_file m f hm) files
    emptyTreasuryMaps keysNodup_empty

/-- C9: every series `parseTreasurySeries` produces is strictly ascending
by time (hence at most one point per timestamp), and merging source files
is overwrite-composition: the value at any timestamp in the merged parse
is the later files' value when they set it, otherwise the earlier
files' value. -/
theorem parseTreasurySeries_sorted_overwrite :
    (∀ (files : List String) (tk : TreasuryInstrumentKey),
      List.Pairwise (fun p q : PricePoint => p.time < q.time) (parseTreasurySeries files tk)) ∧
    (∀ (files1 files2 : List String) (tk : TreasuryInstrumentKey) (t : Int),
      valueAt (parseTreasurySeries (files1 ++ files2) tk) t =
        orFirst (valueAt (parseTreasurySeries files2 tk) t)
          (valueAt (parseTreasurySeries files1 tk) t)) := by
  constructor
  · intro files tk
    simp only [parseTreasurySeries, dedupeSortSeries]
    rw [List.pairwise_map]
    exact sortByTime_strict _ (keysNodup_parse files tk)
  · intro fs1 fs2 tk t
    simp only [parseTreasurySeries]
    rw [valueAt_dedupeSortSeries _ (keysNodup_parse (fs1 ++ fs2) tk) t,
      valueAt_dedupeSortSeries _ (keysNodup_parse fs2 tk) t,
      valueAt_dedupeSortSeries _ (keysNodup_parse fs1 tk) t,
      List.foldl_append]
    exact overwritesTM_foldl processTreasuryFile (fun f => overwritesTM_file f) fs2
      (fs1.foldl processTreasuryFile emptyTreasuryMaps) tk t

end MarketData
